import Mathlib

/-!
Verification development for the MCYJ-Datapipeline special-investigation-report
(SIR) parsing core.  The Python sources
`special_report_parsing/parse_special_reports.py`,
`structure_agnostic_parser.py` and `check_duplicate_consistency.py` are
shallowly embedded here: document text is a `List Char`, each regular
expression used by the source is hand-translated into an executable scanner
over character lists, and the record-assembly code is translated into pure
functions on those scanners' outputs.  All embedded functions are computable,
so concrete documents can be pushed through the embedded parser inside proofs.

Python `str.lower()` is modelled on the ASCII range (all corpus markers the
parser matches are ASCII).  Python `re` semantics are modelled as leftmost
match with backtracking priority: alternatives are tried in source order,
greedy pieces longest-first, lazy pieces shortest-first.
-/

namespace MCYJ

set_option maxRecDepth 40000

/-- Document text: a Python `str` as its list of characters. -/
abbrev Text := List Char

/-! ## Character and string primitives -/

/-- ASCII lower-casing, the fragment of Python `str.lower()` exercised by the
parser's markers. -/
def lowerChar (c : Char) : Char :=
  if 'A' ≤ c && c ≤ 'Z' then Char.ofNat (c.toNat + 32) else c

/-- Lower-case a whole text. -/
def lowerText (t : Text) : Text := t.map lowerChar

/-- Python's `needle in hay` substring test. -/
def containsSub (needle hay : Text) : Bool :=
  match hay with
  | [] => needle.isEmpty
  | _ :: rest => needle.isPrefixOf hay || containsSub needle rest

/-- Python `str.isspace` fragment: the characters matched by `\s`. -/
def pyIsSpace (c : Char) : Bool :=
  c = ' ' || c = '\t' || c = '\n' || c = '\r' || c = '\x0b' || c = '\x0c'

/-- Python `str.strip()`: drop leading and trailing whitespace. -/
def pyStrip (t : Text) : Text :=
  ((t.dropWhile pyIsSpace).reverse.dropWhile pyIsSpace).reverse

/-- ASCII digit test, the regex class `\d`. -/
def isAsciiDigit (c : Char) : Bool := '0' ≤ c && c ≤ '9'

/-- ASCII upper-case letter, the regex class `[A-Z]`. -/
def isAsciiUpper (c : Char) : Bool := 'A' ≤ c && c ≤ 'Z'

/-- ASCII lower-case letter, the regex class `[a-z]`. -/
def isAsciiLower (c : Char) : Bool := 'a' ≤ c && c ≤ 'z'

/-- ASCII alphanumeric, the regex class `[a-zA-Z0-9]`. -/
def isAsciiAlnum (c : Char) : Bool :=
  isAsciiUpper c || isAsciiLower c || isAsciiDigit c

/-- Word character, the regex class `\w` (ASCII fragment). -/
def isWordChar (c : Char) : Bool := isAsciiAlnum c || c = '_'

/-- The sentinel string `"N/A"` used by the sources. -/
def sNA : Text := "N/A".toList

/-! ## Violation tri-state derivations

Three distinct status derivations occur in the sources; each is embedded
separately so their (dis)agreement can be stated. -/

/-- Conclusion contains `"not"` case-insensitively. -/
def hasNot (concl : Text) : Bool := containsSub "not".toList (lowerText concl)

/-- Conclusion contains `"established"` case-insensitively. -/
def hasEstablished (concl : Text) : Bool :=
  containsSub "established".toList (lowerText concl)

/-- Violation status of `structure_agnostic_parser._extract_applicable_format_agnostic`
(lines 101–109) and `check_duplicate_consistency.extract_all_rules_with_status`
(lines 51–59): `"N/A"` sentinel stays `"N/A"`, `"not"`+`"established"` gives
`"No"`, `"established"` alone gives `"Yes"`, anything else `"N/A"`. -/
def violationAgnostic (conclusion : Text) : Text :=
  if conclusion = sNA then sNA
  else if hasNot conclusion && hasEstablished conclusion then "No".toList
  else if hasEstablished conclusion then "Yes".toList
  else sNA

/-- Violation status of the allegation records built by
`parse_special_reports.parse_single_record` (line 399):
`"No" if "not" in concl.lower() else "Yes"`. -/
def violationAlleg (concl : Text) : Text :=
  if hasNot concl then "No".toList else "Yes".toList

/-- Violation status of the rule records built by
`parse_special_reports.parse_single_record` (line 414):
`"No" if "not" in concl.lower() else "Yes" if concl != "N/A" else "N/A"`. -/
def violationRule (concl : Text) : Text :=
  if hasNot concl then "No".toList
  else if concl ≠ sNA then "Yes".toList else sNA

/-- Modelled from the spec: the single tri-state rule stated in §4.4/§8 and
claim C1 — an empty conclusion yields Unknown (`"N/A"`); a conclusion
containing `"not"` and `"established"` (case-insensitive) yields `"No"`; one
containing `"established"` otherwise yields `"Yes"`; any other conclusion
yields Unknown. -/
def specTriState (concl : Text) : Text :=
  if concl = [] then sNA
  else if hasNot concl && hasEstablished concl then "No".toList
  else if hasEstablished concl then "Yes".toList
  else sNA

/-! ## Deduplication and mention tally
(`structure_agnostic_parser.extract_rules_agnostic`, lines 34–54) -/

/-- One raw rule mention: the `(rule_code, description, conclusion,
violation_status)` tuples accumulated in `all_rules`. -/
structure RawRule where
  code : Text
  desc : Text
  concl : Text
  status : Text
deriving DecidableEq

/-- Deduplication loop of `extract_rules_agnostic` (lines 46–52): walk the raw
mentions in order keeping the first mention of each code; `seen` is the set of
codes already kept. -/
def dedupRules (rs : List RawRule) (seen : List Text) : List RawRule :=
  match rs with
  | [] => []
  | r :: rest =>
    if r.code ∈ seen then dedupRules rest seen
    else r :: dedupRules rest (r.code :: seen)

/-- One step of the duplicate tally `duplicates[rule_code] =
duplicates.get(rule_code, 0) + 1` on an insertion-ordered association list. -/
def bumpCount (key : Text) : List (Text × Nat) → List (Text × Nat)
  | [] => [(key, 1)]
  | (k, n) :: rest =>
    if k = key then (k, n + 1) :: rest else (k, n) :: bumpCount key rest

/-- Duplicate tally of `extract_rules_agnostic` (lines 35–37): fold the raw
mentions into a per-code occurrence count. -/
def dupCounts (rs : List RawRule) : List (Text × Nat) :=
  rs.foldl (fun d r => bumpCount r.code d) []

/-- Count looked up in the tally dictionary (0 when absent). -/
def lookupCount (d : List (Text × Nat)) (c : Text) : Nat :=
  match d.find? (fun p => p.1 == c) with
  | some p => p.2
  | none => 0

/-- Number of raw mentions of a given code. -/
def countCode (rs : List RawRule) (c : Text) : Nat :=
  rs.countP (fun r => r.code == c)

/-! ## Consistency checker core
(`check_duplicate_consistency.check_consistency`, lines 90–120) -/

/-- One raw mention as seen by the consistency checker:
`(rule_code, conclusion, violation_status)`. -/
structure MentionRec where
  code : Text
  concl : Text
  status : Text
deriving DecidableEq

/-- Append a `(conclusion, status)` pair to the bucket of `code` in the
insertion-ordered grouping dictionary (`rule_statuses` in the source). -/
def addStatus (code : Text) (pair : Text × Text) :
    List (Text × List (Text × Text)) → List (Text × List (Text × Text))
  | [] => [(code, [pair])]
  | (k, ps) :: rest =>
    if k = code then (k, ps ++ [pair]) :: rest
    else (k, ps) :: addStatus code pair rest

/-- Grouping loop of `check_consistency` (lines 91–95): bucket all mentions by
rule code, each bucket in encounter order. -/
def ruleStatuses (rs : List MentionRec) : List (Text × List (Text × Text)) :=
  rs.foldl (fun d r => addStatus r.code (r.concl, r.status) d) []

/-- First-occurrence deduplication of a list of strings (the effect of
Python's `set(...)` used only for its cardinality). -/
def dedupStrs (l : List Text) (seen : List Text) : List Text :=
  match l with
  | [] => []
  | s :: rest =>
    if s ∈ seen then dedupStrs rest seen else s :: dedupStrs rest (s :: seen)

/-- Inconsistency detection of `check_consistency` (lines 101–111): a code is
flagged when it has more than one mention and the mentions carry more than one
distinct status; the flagged entry retains the full `(conclusion, status)`
bucket. -/
def inconsistenciesOf (rs : List MentionRec) : List (Text × List (Text × Text)) :=
  (ruleStatuses rs).filter
    (fun e => 1 < e.2.length && 1 < (dedupStrs (e.2.map Prod.snd) []).length)

/-- All `(conclusion, status)` pairs carried by mentions of a given code, in
encounter order. -/
def pairsFor (rs : List MentionRec) (c : Text) : List (Text × Text) :=
  (rs.filter (fun r => r.code == c)).map (fun r => (r.concl, r.status))

/-! ## Lemmas about deduplication -/

theorem dedupRules_length_le (rs : List RawRule) (seen : List Text) :
    (dedupRules rs seen).length ≤ rs.length := by
  induction rs generalizing seen with
  | nil => simp [dedupRules]
  | cons r rest ih =>
    simp only [dedupRules]
    split
    · exact Nat.le_succ_of_le (ih seen)
    · simpa using Nat.succ_le_succ (ih (r.code :: seen))

theorem dedupRules_map_sublist (rs : List RawRule) (seen : List Text) :
    ((dedupRules rs seen).map RawRule.code).Sublist (rs.map RawRule.code) := by
  induction rs generalizing seen with
  | nil => simp [dedupRules]
  | cons r rest ih =>
    simp only [dedupRules]
    split
    · exact (ih seen).trans (List.sublist_cons_self _ _)
    · simpa using (ih (r.code :: seen)).cons₂ r.code

theorem dedupRules_nodup_aux (rs : List RawRule) (seen : List Text) :
    ((dedupRules rs seen).map RawRule.code).Nodup ∧
      ∀ c ∈ (dedupRules rs seen).map RawRule.code, c ∉ seen := by
  induction rs generalizing seen with
  | nil => simp [dedupRules]
  | cons r rest ih =>
    simp only [dedupRules]
    split
    · exact ih seen
    · rename_i hmem
      obtain ⟨h1, h2⟩ := ih (r.code :: seen)
      refine ⟨?_, ?_⟩
      · simp only [List.map_cons, List.nodup_cons]
        exact ⟨fun hc => (h2 _ hc) (List.mem_cons_self _ _), h1⟩
      · intro c hc
        simp only [List.map_cons, List.mem_cons] at hc
        rcases hc with rfl | hc
        · exact hmem
        · exact fun hs => h2 c hc (List.mem_cons_of_mem _ hs)

theorem mem_of_mem_dedupRules {rs : List RawRule} {seen : List Text}
    {r : RawRule} (h : r ∈ dedupRules rs seen) : r ∈ rs := by
  induction rs generalizing seen with
  | nil => simp [dedupRules] at h
  | cons a rest ih =>
    simp only [dedupRules] at h
    split at h
    · exact List.mem_cons_of_mem _ (ih h)
    · rcases List.mem_cons.mp h with rfl | h
      · exact List.mem_cons_self _ _
      · exact List.mem_cons_of_mem _ (ih h)

theorem dedupRules_keeps_first (rs : List RawRule) (seen : List Text) :
    ∀ r ∈ dedupRules rs seen,
      rs.find? (fun x => x.code == r.code) = some r := by
  induction rs generalizing seen with
  | nil => simp [dedupRules]
  | cons a rest ih =>
    intro r hr
    simp only [dedupRules] at hr
    split at hr
    · rename_i hmem
      have hnotin := (dedupRules_nodup_aux rest seen).2 r.code
        (List.mem_map_of_mem _ hr)
      have hne : (a.code == r.code) = false := by
        simp only [beq_eq_false_iff_ne, ne_eq]
        intro he
        exact hnotin (he ▸ hmem)
      rw [List.find?_cons, hne]
      exact ih seen r hr
    · rename_i hmem
      rcases List.mem_cons.mp hr with rfl | hr
      · rw [List.find?_cons]
        simp
      · have hnotin := (dedupRules_nodup_aux rest (a.code :: seen)).2 r.code
          (List.mem_map_of_mem _ hr)
        have hne : (a.code == r.code) = false := by
          simp only [beq_eq_false_iff_ne, ne_eq]
          intro he
          exact hnotin (by rw [← he]; exact List.mem_cons_self _ _)
        rw [List.find?_cons, hne]
        exact ih (a.code :: seen) r hr

theorem bumpCount_lookup (key c : Text) (d : List (Text × Nat)) :
    lookupCount (bumpCount key d) c =
      if c = key then lookupCount d c + 1 else lookupCount d c := by
  induction d with
  | nil =>
    by_cases h : c = key
    · simp [bumpCount, lookupCount, List.find?, h]
    · have h2 : (key == c) = false := beq_eq_false_iff_ne.mpr (Ne.symm h)
      simp [bumpCount, lookupCount, List.find?, h, h2]
  | cons p rest ih =>
    obtain ⟨k, n⟩ := p
    simp only [bumpCount]
    by_cases hk : k = key
    · subst hk
      by_cases hc : c = k
      · simp [lookupCount, List.find?_cons, hc]
      · have h2 : (k == c) = false := beq_eq_false_iff_ne.mpr (Ne.symm hc)
        simp [lookupCount, List.find?_cons, hc, h2]
    · simp only [if_neg hk]
      by_cases hc : c = k
      · subst hc
        have h2 : (c == c) = true := by simp
        simp [lookupCount, List.find?_cons, h2, if_neg hk]
      · have h2 : (k == c) = false := beq_eq_false_iff_ne.mpr (Ne.symm hc)
        simp only [lookupCount, List.find?_cons, h2] at ih ⊢
        simpa [lookupCount] using ih

theorem lookupCount_dupCounts (rs : List RawRule) (c : Text) :
    lookupCount (dupCounts rs) c = countCode rs c := by
  suffices h : ∀ d, lookupCount (rs.foldl (fun d r => bumpCount r.code d) d) c
      = lookupCount d c + countCode rs c by
    simpa [dupCounts, lookupCount] using h []
  induction rs with
  | nil => intro d; simp [countCode]
  | cons r rest ih =>
    intro d
    simp only [List.foldl_cons]
    rw [ih (bumpCount r.code d), bumpCount_lookup]
    by_cases h : c = r.code
    · simp only [if_pos h, countCode, List.countP_cons]
      have : (r.code == c) = true := by simp [h.symm]
      simp [this]
      omega
    · simp only [if_neg h, countCode, List.countP_cons]
      have h2 : (r.code == c) = false :=
        beq_eq_false_iff_ne.mpr (fun he => h he.symm)
      simp [h2]

theorem countCode_pos_of_mem {rs : List RawRule} {r : RawRule} (h : r ∈ rs) :
    1 ≤ countCode rs r.code := by
  have : 0 < rs.countP (fun x => x.code == r.code) :=
    List.countP_pos_iff.mpr ⟨r, h, by simp⟩
  simpa [countCode] using this

/-- C3: deduplication in `extract_rules_agnostic` is a fold over the raw
citation sequence in encounter order keeping the first occurrence of each
rule code and tallying per-code occurrence counts: the deduplicated length is
at most the raw length, the deduplicated codes appear in first-seen order
(a duplicate-free sublist of the raw code sequence), every kept mention is
the first raw mention of its code, and its tallied count equals its raw
occurrence count, which is at least 1. -/
theorem dedup_fold_properties (rs : List RawRule) :
    (dedupRules rs []).length ≤ rs.length ∧
    ((dedupRules rs []).map RawRule.code).Sublist (rs.map RawRule.code) ∧
    ((dedupRules rs []).map RawRule.code).Nodup ∧
    ∀ r ∈ dedupRules rs [],
      rs.find? (fun x => x.code == r.code) = some r ∧
      lookupCount (dupCounts rs) r.code = countCode rs r.code ∧
      1 ≤ lookupCount (dupCounts rs) r.code := by
  refine ⟨dedupRules_length_le rs [], dedupRules_map_sublist rs [],
    (dedupRules_nodup_aux rs []).1, ?_⟩
  intro r hr
  have h1 := dedupRules_keeps_first rs [] r hr
  have h2 := lookupCount_dupCounts rs r.code
  have h3 := countCode_pos_of_mem (mem_of_mem_dedupRules hr)
  exact ⟨h1, h2, by omega⟩

/-- Sample raw mention list exercising `dedup_fold_properties`. -/
def sampleRawRules : List RawRule :=
  [⟨"400.1".toList, "d1".toList, "c1".toList, "Yes".toList⟩,
   ⟨"400.2".toList, "d2".toList, "c2".toList, "No".toList⟩,
   ⟨"400.1".toList, "d3".toList, "c3".toList, "No".toList⟩]

theorem dedup_fold_properties_witness :
    (dedupRules sampleRawRules []).length ≤ sampleRawRules.length ∧
      1 ≤ lookupCount (dupCounts sampleRawRules) "400.1".toList := by
  have h := dedup_fold_properties sampleRawRules
  refine ⟨h.1, ?_⟩
  have hm : (⟨"400.1".toList, "d1".toList, "c1".toList, "Yes".toList⟩ : RawRule)
      ∈ dedupRules sampleRawRules [] := by decide
  simpa using (h.2.2.2 _ hm).2.2

/-! ## Lemmas about the consistency checker -/

/-- Bucket looked up in the grouping dictionary. -/
def findPs (d : List (Text × List (Text × Text))) (k : Text) :
    Option (List (Text × Text)) :=
  (d.find? (fun e => e.1 == k)).map Prod.snd

theorem findPs_cons (pk : Text) (ps : List (Text × Text))
    (rest : List (Text × List (Text × Text))) (k : Text) :
    findPs ((pk, ps) :: rest) k = if pk = k then some ps else findPs rest k := by
  by_cases h : pk = k
  · simp [findPs, List.find?_cons, h]
  · have h2 : (pk == k) = false := beq_eq_false_iff_ne.mpr h
    simp [findPs, List.find?_cons, h2, h]

theorem addStatus_findPs (code k : Text) (pair : Text × Text)
    (d : List (Text × List (Text × Text))) :
    findPs (addStatus code pair d) k =
      if k = code then some ((findPs d code).getD [] ++ [pair])
      else findPs d k := by
  induction d with
  | nil =>
    by_cases h : k = code
    · simp [addStatus, findPs, List.find?, h]
    · have h2 : (code == k) = false := beq_eq_false_iff_ne.mpr (Ne.symm h)
      simp [addStatus, findPs, List.find?, h, h2]
  | cons p rest ih =>
    obtain ⟨pk, ps⟩ := p
    simp only [addStatus]
    by_cases hpk : pk = code
    · rw [if_pos hpk, findPs_cons]
      by_cases hk : pk = k
      · have hkc : k = code := by rw [← hk]; exact hpk
        rw [if_pos hk, if_pos hkc, findPs_cons]
        have hpc : pk = code := hpk
        rw [if_pos hpc]
        rfl
      · have hkc : ¬k = code := fun h => hk (by rw [hpk, h])
        rw [if_neg hk, if_neg hkc, findPs_cons, if_neg hk]
    · rw [if_neg hpk, findPs_cons]
      by_cases hk : pk = k
      · have hkc : ¬k = code := fun h => hpk (by rw [hk, h])
        rw [if_pos hk, if_neg hkc, findPs_cons, if_pos hk]
      · rw [if_neg hk, ih]
        by_cases hkc : k = code
        · rw [if_pos hkc, if_pos hkc, findPs_cons, if_neg hpk]
        · rw [if_neg hkc, if_neg hkc, findPs_cons, if_neg hk]

theorem ruleStatuses_foldl_findPs (rs : List MentionRec) (c : Text) :
    ∀ d, findPs (rs.foldl (fun d r => addStatus r.code (r.concl, r.status) d) d) c =
      if pairsFor rs c = [] then findPs d c
      else some ((findPs d c).getD [] ++ pairsFor rs c) := by
  induction rs with
  | nil => intro d; simp [pairsFor]
  | cons r rest ih =>
    intro d
    simp only [List.foldl_cons]
    rw [ih (addStatus r.code (r.concl, r.status) d)]
    by_cases hc : c = r.code
    · have h2 : (r.code == c) = true := beq_iff_eq.mpr hc.symm
      have hp : pairsFor (r :: rest) c =
          (r.concl, r.status) :: pairsFor rest c := by
        simp [pairsFor, List.filter_cons, h2]
      rw [hp, addStatus_findPs, if_pos hc, ← hc]
      by_cases hrest : pairsFor rest c = []
      · simp [hrest]
      · simp [hrest, List.append_assoc]
    · have h2 : (r.code == c) = false :=
        beq_eq_false_iff_ne.mpr (fun he => hc he.symm)
      have hp : pairsFor (r :: rest) c = pairsFor rest c := by
        simp [pairsFor, List.filter_cons, h2]
      rw [hp, addStatus_findPs, if_neg hc]

theorem ruleStatuses_findPs (rs : List MentionRec) (c : Text)
    (h : pairsFor rs c ≠ []) :
    findPs (ruleStatuses rs) c = some (pairsFor rs c) := by
  have := ruleStatuses_foldl_findPs rs c []
  simp only [if_neg h, findPs, List.find?] at this
  simpa [ruleStatuses, findPs] using this

theorem mem_dedupStrs {l : List Text} {s : Text} (hs : s ∈ l) :
    ∀ seen, s ∉ seen → s ∈ dedupStrs l seen := by
  induction l with
  | nil => simp at hs
  | cons a rest ih =>
    intro seen hseen
    simp only [dedupStrs]
    rcases List.mem_cons.mp hs with rfl | hs2
    · rw [if_neg hseen]
      exact List.mem_cons_self _ _
    · by_cases ha : a ∈ seen
      · rw [if_pos ha]
        exact ih hs2 seen hseen
      · rw [if_neg ha]
        by_cases hsa : s = a
        · subst hsa
          exact List.mem_cons_self _ _
        · exact List.mem_cons_of_mem _ (ih hs2 (a :: seen)
            (by simp [hsa, hseen]))

theorem one_lt_length_of_mem_ne {α : Type} {l : List α} {x y : α}
    (hx : x ∈ l) (hy : y ∈ l) (h : x ≠ y) : 1 < l.length := by
  match l with
  | [] => simp at hx
  | [a] =>
    simp only [List.mem_singleton] at hx hy
    exact absurd (hx.trans hy.symm) h
  | a :: b :: t => simp [List.length_cons]

theorem mem_pairsFor {rs : List MentionRec} {m : MentionRec} {c : Text}
    (hm : m ∈ rs) (hc : m.code = c) : (m.concl, m.status) ∈ pairsFor rs c := by
  refine List.mem_map_of_mem _ (List.mem_filter.mpr ⟨hm, ?_⟩)
  simp [hc]

/-- C4 (amended): whenever two mentions of the same rule code carry different
violation statuses, `check_consistency` flags the document (its inconsistency
list is nonempty) and flags that specific code, retaining the full
encounter-ordered list of `(conclusion, status)` pairs for it. -/
theorem check_consistency_flags (rs : List MentionRec) (c : Text)
    (m1 m2 : MentionRec) (h1 : m1 ∈ rs) (h2 : m2 ∈ rs)
    (hc1 : m1.code = c) (hc2 : m2.code = c) (hne : m1.status ≠ m2.status) :
    inconsistenciesOf rs ≠ [] ∧ (c, pairsFor rs c) ∈ inconsistenciesOf rs := by
  have hp1 : (m1.concl, m1.status) ∈ pairsFor rs c := mem_pairsFor h1 hc1
  have hp2 : (m2.concl, m2.status) ∈ pairsFor rs c := mem_pairsFor h2 hc2
  have hpne : (m1.concl, m1.status) ≠ (m2.concl, m2.status) := by
    intro he
    exact hne (congrArg Prod.snd he)
  have hlen : 1 < (pairsFor rs c).length :=
    one_lt_length_of_mem_ne hp1 hp2 hpne
  have hs1 : m1.status ∈ (pairsFor rs c).map Prod.snd :=
    List.mem_map_of_mem _ hp1
  have hs2 : m2.status ∈ (pairsFor rs c).map Prod.snd :=
    List.mem_map_of_mem _ hp2
  have hd1 : m1.status ∈ dedupStrs ((pairsFor rs c).map Prod.snd) [] :=
    mem_dedupStrs hs1 [] (by simp)
  have hd2 : m2.status ∈ dedupStrs ((pairsFor rs c).map Prod.snd) [] :=
    mem_dedupStrs hs2 [] (by simp)
  have hdlen : 1 < (dedupStrs ((pairsFor rs c).map Prod.snd) []).length :=
    one_lt_length_of_mem_ne hd1 hd2 hne
  have hnonempty : pairsFor rs c ≠ [] := List.ne_nil_of_mem hp1
  have hfind := ruleStatuses_findPs rs c hnonempty
  obtain ⟨e, he1, he2⟩ : ∃ e,
      (ruleStatuses rs).find? (fun x => x.1 == c) = some e ∧
        e.2 = pairsFor rs c := by
    unfold findPs at hfind
    cases h : (ruleStatuses rs).find? (fun x => x.1 == c) with
    | none => rw [h] at hfind; simp at hfind
    | some e =>
      rw [h] at hfind
      exact ⟨e, rfl, by simpa using hfind⟩
  have hmem := List.mem_of_find?_eq_some he1
  have hpe1 := List.find?_some he1
  have he : e = (c, pairsFor rs c) := by
    have h1 : e.1 = c := by simpa using hpe1
    exact Prod.ext h1 he2
  subst he
  have hin : (c, pairsFor rs c) ∈ inconsistenciesOf rs := by
    refine List.mem_filter.mpr ⟨hmem, ?_⟩
    simp only [Bool.and_eq_true, decide_eq_true_eq]
    exact ⟨hlen, hdlen⟩
  exact ⟨List.ne_nil_of_mem hin, hin⟩

/-- Sample mention list exercising `check_consistency_flags`. -/
def sampleMentions : List MentionRec :=
  [⟨"400.5678".toList, "Violation established".toList, "Yes".toList⟩,
   ⟨"400.5678".toList, "Violation not established".toList, "No".toList⟩]

theorem check_consistency_flags_witness :
    inconsistenciesOf sampleMentions ≠ [] := by
  have h := check_consistency_flags sampleMentions "400.5678".toList
    ⟨"400.5678".toList, "Violation established".toList, "Yes".toList⟩
    ⟨"400.5678".toList, "Violation not established".toList, "No".toList⟩
    (by decide) (by decide) (by decide) (by decide) (by decide)
  exact h.1

/-- C1 (amended): the violation tri-state computed by the structure-agnostic
extractor and the duplicate-consistency checker agrees on every conclusion
text with the specification's single rule (empty conclusion yields Unknown;
"not" and "established" yield No; "established" otherwise yields Yes; any
other conclusion yields Unknown, with `"N/A"` playing Unknown). -/
theorem agnostic_status_matches_spec_rule (concl : Text) :
    violationAgnostic concl = specTriState concl := by
  by_cases hna : concl = sNA
  · subst hna; decide
  · by_cases hnil : concl = []
    · subst hnil; decide
    · simp [violationAgnostic, specTriState, hna, hnil]

/-! ## Position scanning primitives -/

/-- Leftmost-match search: try the matcher at every suffix from left to
right; `prev` carries the character just before the current suffix so
matchers can test word boundaries (Python `re.search` semantics). -/
def searchFrom (m : Option Char → List Char → Option α) :
    Option Char → List Char → Option α
  | prev, [] => m prev []
  | prev, c :: rest =>
    match m prev (c :: rest) with
    | some r => some r
    | none => searchFrom m (some c) rest

/-- Character just before position `p` of `t`, where `init` precedes
position 0. -/
def prevAt (init : Option Char) (t : Text) (p : Nat) : Option Char :=
  match p with
  | 0 => init
  | q + 1 => t.get? q

theorem searchFrom_eq_some_iff (m : Option Char → List Char → Option α)
    (init : Option Char) (t : Text) (r : α) :
    searchFrom m init t = some r ↔
      ∃ p, p ≤ t.length ∧ m (prevAt init t p) (t.drop p) = some r ∧
        ∀ q, q < p → m (prevAt init t q) (t.drop q) = none := by
  induction t generalizing init with
  | nil =>
    constructor
    · intro h
      refine ⟨0, Nat.le_refl 0, ?_, fun q hq => absurd hq (Nat.not_lt_zero q)⟩
      simp only [searchFrom] at h
      simpa [prevAt] using h
    · rintro ⟨p, hp, hm, _⟩
      have hp0 : p = 0 := by simp at hp; omega
      subst hp0
      simp only [searchFrom]
      simpa [prevAt] using hm
  | cons c rest ih =>
    constructor
    · intro h
      simp only [searchFrom] at h
      cases hm : m init (c :: rest) with
      | some r2 =>
        rw [hm] at h
        simp only [Option.some.injEq] at h
        subst h
        exact ⟨0, Nat.zero_le _, by simpa [prevAt] using hm, by omega⟩
      | none =>
        rw [hm] at h
        simp only at h
        obtain ⟨p, hp, hmp, hq⟩ := (ih (some c)).mp h
        refine ⟨p + 1, by simpa using Nat.succ_le_succ hp, ?_, ?_⟩
        · have : prevAt init (c :: rest) (p + 1) = prevAt (some c) rest p := by
            cases p <;> simp [prevAt]
          rw [this]
          simpa using hmp
        · intro q hqlt
          cases q with
          | zero => simpa [prevAt] using hm
          | succ q2 =>
            have : prevAt init (c :: rest) (q2 + 1) = prevAt (some c) rest q2 := by
              cases q2 <;> simp [prevAt]
            rw [this]
            simpa using hq q2 (by omega)
    · rintro ⟨p, hp, hmp, hq⟩
      simp only [searchFrom]
      cases p with
      | zero =>
        simp only [prevAt, List.drop] at hmp
        rw [hmp]
      | succ p2 =>
        have h0 := hq 0 (by omega)
        simp only [prevAt, List.drop] at h0
        rw [h0]
        simp only
        refine (ih (some c)).mpr ⟨p2, by simpa using hp, ?_, ?_⟩
        · have : prevAt init (c :: rest) (p2 + 1) = prevAt (some c) rest p2 := by
            cases p2 <;> simp [prevAt]
          rw [← this]
          simpa using hmp
        · intro q hqlt
          have : prevAt init (c :: rest) (q + 1) = prevAt (some c) rest q := by
            cases q <;> simp [prevAt]
          rw [← this]
          simpa using hq (q + 1) (by omega)

/-- Word-boundary test before a word character: position 0 or preceded by a
non-word character (the `\b` of the source patterns, whose following
character is always a word character). -/
def boundaryBefore (prev : Option Char) : Bool :=
  match prev with
  | none => true
  | some c => !isWordChar c

/-- Consume a case-sensitive literal prefix, returning the rest. -/
def dropLit (lit : List Char) (t : List Char) : Option (List Char) :=
  match lit, t with
  | [], rest => some rest
  | _ :: _, [] => none
  | l :: ls, c :: cs => if c = l then dropLit ls cs else none

/-- Consume a case-insensitive literal prefix (the literal is given
lower-case), returning the rest. -/
def dropLitCI (lit : List Char) (t : List Char) : Option (List Char) :=
  match lit, t with
  | [], rest => some rest
  | _ :: _, [] => none
  | l :: ls, c :: cs => if lowerChar c = l then dropLitCI ls cs else none

/-! ## Document classifier
(`parse_special_reports.get_rule_codes`, lines 209–214) -/

/-- Matcher at one position for `\bII\.\s+([A-Z]+)` (case-sensitive, line
210): word boundary, literal `II.`, one or more whitespace characters, then
the captured maximal nonempty run of capital letters.  `\s+` and `[A-Z]+`
match disjoint character sets, so maximal munch is exact here. -/
def matchIIheadingAt (prev : Option Char) (t : List Char) : Option (List Char) :=
  if boundaryBefore prev then
    match dropLit "II.".toList t with
    | none => none
    | some t1 =>
      let ws := t1.takeWhile pyIsSpace
      if ws.isEmpty then none
      else
        let cap := (t1.drop ws.length).takeWhile isAsciiUpper
        if cap.isEmpty then none else some cap
  else none

/-- First (leftmost) match of `\bII\.\s+([A-Z]+)`: the `section_II_match`
of `get_rule_codes`, returning the captured group. -/
def findIIheading (t : Text) : Option (List Char) :=
  searchFrom matchIIheadingAt none t

/-- Matcher at one position for `\bIII\.\s+INVESTIGATION` with
`re.IGNORECASE` (line 209). -/
def matchIIIinvAt (prev : Option Char) (t : List Char) : Option Unit :=
  if boundaryBefore prev then
    match dropLitCI "iii.".toList t with
    | none => none
    | some t1 =>
      let ws := t1.takeWhile pyIsSpace
      if ws.isEmpty then none
      else (dropLitCI "investigation".toList (t1.drop ws.length)).map (fun _ => ())
  else none

/-- The `has_section_III_investigation` test of `get_rule_codes` (line 209). -/
def hasIIIinvestigation (t : Text) : Bool :=
  (searchFrom matchIIIinvAt none t).isSome

/-- Structure detection of `get_rule_codes` (lines 209–214): variant B iff
the first `II.` heading match captures a word starting with `METHODOLOGY`
and no `III. INVESTIGATION` heading occurs anywhere. -/
def isStructureB (t : Text) : Bool :=
  (match findIIheading t with
   | some cap => "METHODOLOGY".toList.isPrefixOf cap
   | none => false) && !hasIIIinvestigation t

/-- Modelled from the spec (claim C2 reads "a heading `II. …` begins with
`METHODOLOGY`" existentially): some position of the text matches
`\bII\.\s+([A-Z]+)` with a capture starting with `METHODOLOGY`. -/
def existsIIMethodology (t : Text) : Bool :=
  (searchFrom (fun prev s => (matchIIheadingAt prev s).bind
    (fun cap => if "METHODOLOGY".toList.isPrefixOf cap then some () else none))
    none t).isSome

/-- C2 counterexample: in a text whose first `II.` heading is not
`METHODOLOGY` but which contains a later `II. METHODOLOGY` heading and no
`III. INVESTIGATION` heading, the classifier assigns variant A even though
the claim's condition (some `II.` heading begins with `METHODOLOGY`, and no
`III. INVESTIGATION` exists) demands variant B. -/
theorem classifier_counterexample :
    isStructureB "II. AB II. METHODOLOGY".toList = false ∧
    existsIIMethodology "II. AB II. METHODOLOGY".toList = true ∧
    hasIIIinvestigation "II. AB II. METHODOLOGY".toList = false := by
  decide

/-! ## Block-format and tabular-format rule extraction

Scanners for the patterns shared by `structure_agnostic_parser.py`,
`check_duplicate_consistency.py` and `parse_special_reports.py`. -/

/-- Python slice `t[a:b]`. -/
def sliceText (t : Text) (a b : Nat) : Text := (t.drop a).take (b - a)

/-- Lazy `(.*?)(?=…)` capture: scan forward, stopping at the first suffix
where the lookahead holds; returns the captured prefix and the suffix at the
stop.  `none` when the lookahead never holds. -/
def lazyCaptureUntil (look : List Char → Bool) : List Char → Option (List Char × List Char)
  | [] => if look [] then some ([], []) else none
  | c :: rest =>
    if look (c :: rest) then some ([], c :: rest)
    else (lazyCaptureUntil look rest).map (fun r => (c :: r.1, r.2))

/-- Python `$` (no MULTILINE): matches at the end of the text or just before
a trailing newline; phrased on the suffix at the current position. -/
def dollarAt (s : List Char) : Bool := s.isEmpty || s = ['\n']

/-- First position at which a predicate on suffixes holds (the `.start()` of
an `re.search` whose pattern is a position test). -/
def findPosFrom (m : List Char → Bool) : List Char → Option Nat
  | [] => if m [] then some 0 else none
  | c :: rest =>
    if m (c :: rest) then some 0 else (findPosFrom m rest).map (· + 1)

/-- Last character of the consumed segment, used to thread the
previous-character state across a `finditer` resume point. -/
def lastPrev (prev : Option Char) (consumed : List Char) : Option Char :=
  match consumed.getLast? with
  | some c => some c
  | none => prev

/-- `re.finditer`: scan left to right, resuming after each match's end; the
matcher sees the previous character (for `\b`) and returns consumed length
plus payload.  Produces `(start, length, payload)` triples.  Fuel is the
text length plus one; every source matcher consumes at least one
character. -/
def finditerB (m : Option Char → List Char → Option (Nat × α)) :
    Nat → Nat → Option Char → List Char → List (Nat × Nat × α)
  | 0, _, _, _ => []
  | fuel + 1, pos, prev, t =>
    match m prev t with
    | some (len, a) =>
      if len = 0 then []
      else (pos, len, a) :: finditerB m fuel (pos + len) (lastPrev prev (t.take len)) (t.drop len)
    | none =>
      match t with
      | [] => []
      | c :: rest => finditerB m fuel (pos + 1) (some c) rest

/-- Matcher for `applicable (?:rule|policy)` (case-insensitive), returning
the matched length (15 or 17). -/
def matchApplicableAt (t : List Char) : Option (Nat × Unit) :=
  match dropLitCI "applicable ".toList t with
  | none => none
  | some t1 =>
    if (dropLitCI "rule".toList t1).isSome then some (15, ())
    else if (dropLitCI "policy".toList t1).isSome then some (17, ())
    else none

/-- Start positions of `re.finditer(r"applicable (?:rule|policy)", text,
re.IGNORECASE)` — the block openers of `_extract_applicable_format_agnostic`
(line 63), `extract_all_rules_with_status` (line 20) and
`_extract_applicable_rule_format` (line 240). -/
def applicableIndices (t : Text) : List Nat :=
  (finditerB (fun _ s => matchApplicableAt s) (t.length + 1) 0 none t).map (·.1)

/-- Block spans of `_extract_applicable_format_agnostic` (lines 67–74) and
`extract_all_rules_with_status` (lines 22–29): each start is paired with the
next start, the final start with `min (len text) (start + 2000)`. -/
def blockSpans (tl : Nat) : List Nat → List (Nat × Nat)
  | [] => []
  | [p] => [(p, min tl (p + 2000))]
  | p :: q :: rest => (p, q) :: blockSpans tl (q :: rest)

/-- Matcher for `\d{3}\.\d+`: exactly three digits, a dot, one or more
digits (maximal), returning the captured code. -/
def matchCodeDigits (t : List Char) : Option (List Char) :=
  match t with
  | a :: b :: c :: '.' :: rest =>
    if isAsciiDigit a && isAsciiDigit b && isAsciiDigit c then
      let frac := rest.takeWhile isAsciiDigit
      if frac.isEmpty then none
      else some (a :: b :: c :: '.' :: frac)
    else none
  | _ => none

/-- Matcher at one position for `(?:R\s+)?(\d{3}\.\d+)`: the `R`-prefixed
alternative is tried first (`\s+` and `\d` are disjoint, so maximal munch is
exact), then the bare code. -/
def matchRuleNumAt (t : List Char) : Option (List Char) :=
  let rBranch : Option (List Char) :=
    match t with
    | 'R' :: rest =>
      let ws := rest.takeWhile pyIsSpace
      if ws.isEmpty then none else matchCodeDigits (rest.drop ws.length)
    | _ => none
  rBranch.orElse (fun _ => matchCodeDigits t)

/-- ASCII letter test: the class `[A-Z]` under `re.IGNORECASE`. -/
def isAsciiAlpha (c : Char) : Bool := isAsciiUpper c || isAsciiLower c

/-- Matcher at one position for `FOM\s+(\d+-\d+[A-Z]?)` with
`re.IGNORECASE` (so the trailing letter class also accepts lower case),
returning the captured group. -/
def matchFOMAt (t : List Char) : Option (List Char) :=
  match dropLitCI "fom".toList t with
  | none => none
  | some t1 =>
    let ws := t1.takeWhile pyIsSpace
    if ws.isEmpty then none
    else
      let t2 := t1.drop ws.length
      let d1 := t2.takeWhile isAsciiDigit
      if d1.isEmpty then none
      else
        match t2.drop d1.length with
        | '-' :: t3 =>
          let d2 := t3.takeWhile isAsciiDigit
          if d2.isEmpty then none
          else
            let letter : List Char :=
              match t3.drop d2.length with
              | c :: _ => if isAsciiAlpha c then [c] else []
              | [] => []
            some (d1 ++ '-' :: (d2 ++ letter))
        | _ => none

/-- Rule-code search shared by the applicable-block extractors: first
`(?:R\s+)?(\d{3}\.\d+)`, then `FOM\s+(\d+-\d+[A-Z]?)` prefixed with
`"FOM "`. -/
def findBlockRuleCode (sect : Text) : Option (List Char) :=
  match searchFrom (fun _ s => matchRuleNumAt s) none sect with
  | some code => some code
  | none =>
    (searchFrom (fun _ s => matchFOMAt s) none sect).map
      (fun cap => "FOM ".toList ++ cap)

/-- Lookahead `(?=ANALYSIS|CONCLUSION|$)` under `re.IGNORECASE`. -/
def lookAnalysisConclusionEnd (s : List Char) : Bool :=
  (dropLitCI "analysis".toList s).isSome ||
    (dropLitCI "conclusion".toList s).isSome || dollarAt s

/-- Lookahead `(?=APPLICABLE|$)` under `re.IGNORECASE`. -/
def lookApplicableEnd (s : List Char) : Bool :=
  (dropLitCI "applicable".toList s).isSome || dollarAt s

/-- Matcher at one position for
`APPLICABLE (?:RULE|POLICY)(.*?)(?=ANALYSIS|CONCLUSION|$)` (IGNORECASE,
DOTALL), returning the captured description. -/
def matchApplicableDescAt (s : List Char) : Option (List Char) :=
  match dropLitCI "applicable ".toList s with
  | none => none
  | some s1 =>
    match (dropLitCI "rule".toList s1).orElse
        (fun _ => dropLitCI "policy".toList s1) with
    | none => none
    | some s2 => (lazyCaptureUntil lookAnalysisConclusionEnd s2).map Prod.fst

/-- Matcher at one position for `CONCLUSION:\s*(.*?)(?=APPLICABLE|$)`
(IGNORECASE, DOTALL): the greedy `\s*` takes its maximal run (the lazy tail
always succeeds, at worst at `$`, so no backtracking into `\s*` occurs),
then the capture runs to the first lookahead position. -/
def matchConclusionAt (s : List Char) : Option (List Char) :=
  match dropLitCI "conclusion:".toList s with
  | none => none
  | some s1 =>
    let ws := s1.takeWhile pyIsSpace
    (lazyCaptureUntil lookApplicableEnd (s1.drop ws.length)).map Prod.fst

/-- One block of `_extract_applicable_format_agnostic` (lines 67–111): rule
code (skip the block when absent), description, conclusion (sentinel `"N/A"`
when absent), and derived violation status. -/
def agnosticBlockRule (sect : Text) : Option RawRule :=
  match findBlockRuleCode sect with
  | none => none
  | some code =>
    let desc :=
      match searchFrom (fun _ s => matchApplicableDescAt s) none sect with
      | some cap => pyStrip cap
      | none => pyStrip (sect.take 200)
    let concl :=
      match searchFrom (fun _ s => matchConclusionAt s) none sect with
      | some cap => pyStrip cap
      | none => sNA
    some ⟨code, desc, concl, violationAgnostic concl⟩

/-- `structure_agnostic_parser._extract_applicable_format_agnostic`
(lines 57–113). -/
def extractApplicableFormatAgnostic (t : Text) : List RawRule :=
  (blockSpans t.length (applicableIndices t)).filterMap
    (fun sp => agnosticBlockRule (sliceText t sp.1 sp.2))

/-- One block of `check_duplicate_consistency.extract_all_rules_with_status`
(lines 22–61): identical block walk, conclusion truncated to its first 100
characters, no description retained. -/
def consistencyBlockRule (sect : Text) : Option MentionRec :=
  match findBlockRuleCode sect with
  | none => none
  | some code =>
    let concl :=
      match searchFrom (fun _ s => matchConclusionAt s) none sect with
      | some cap => (pyStrip cap).take 100
      | none => sNA
    some ⟨code, concl, violationAgnostic concl⟩

/-- `check_duplicate_consistency.extract_all_rules_with_status`
(lines 12–63). -/
def extractAllRulesWithStatus (t : Text) : List MentionRec :=
  (blockSpans t.length (applicableIndices t)).filterMap
    (fun sp => consistencyBlockRule (sliceText t sp.1 sp.2))

/-- Matcher for the tabular pattern
`Rule Code\s+(?:&\s+)?(?:[A-Z]{2,4}\s+)?(?:Rule|R)\s+(\d{3}\.\d+)`
(case-sensitive), returning the rest after the match and the captured code.
The quantified abbreviation is tried greedily (4, then 3, then 2 letters),
each optional group is tried present-first, matching backtracking
priority. -/
def matchRuleCodeTab (t : List Char) : Option (List Char × List Char) :=
  let codeStage : List Char → Option (List Char × List Char) := fun s =>
    match matchCodeDigits s with
    | none => none
    | some cap => some (s.drop cap.length, cap)
  let ruleRStage : List Char → Option (List Char × List Char) := fun s =>
    (match dropLit "Rule".toList s with
     | some s1 =>
       let ws := s1.takeWhile pyIsSpace
       if ws.isEmpty then none else codeStage (s1.drop ws.length)
     | none => none).orElse (fun _ =>
      match dropLit "R".toList s with
      | some s1 =>
        let ws := s1.takeWhile pyIsSpace
        if ws.isEmpty then none else codeStage (s1.drop ws.length)
      | none => none)
  let abbrevStage : List Char → Option (List Char × List Char) := fun s =>
    let run := s.takeWhile isAsciiUpper
    let tryK : Nat → Option (List Char × List Char) := fun k =>
      if k ≤ run.length then
        let s1 := s.drop k
        let ws := s1.takeWhile pyIsSpace
        if ws.isEmpty then none else ruleRStage (s1.drop ws.length)
      else none
    (tryK 4).orElse (fun _ => (tryK 3).orElse (fun _ =>
      (tryK 2).orElse (fun _ => ruleRStage s)))
  let ampStage : List Char → Option (List Char × List Char) := fun s =>
    (match s with
     | '&' :: s1 =>
       let ws := s1.takeWhile pyIsSpace
       if ws.isEmpty then none else abbrevStage (s1.drop ws.length)
     | _ => none).orElse (fun _ => abbrevStage s)
  match dropLit "Rule Code".toList t with
  | none => none
  | some t1 =>
    let ws := t1.takeWhile pyIsSpace
    if ws.isEmpty then none else ampStage (t1.drop ws.length)

/-- Adapt a rest-returning matcher to a consumed-length matcher. -/
def toLenMatcher (m : List Char → Option (List Char × α))
    (t : List Char) : Option (Nat × α) :=
  (m t).map (fun r => (t.length - r.1.length, r.2))

/-- All tabular-pattern matches of a text: `(start, length, code)`. -/
def ruleCodeTabMatches (t : Text) : List (Nat × Nat × List Char) :=
  finditerB (fun _ s => toLenMatcher matchRuleCodeTab s) (t.length + 1) 0 none t

/-- Matcher for the fallback `\bR\s+(\d{3}\.\d+)`. -/
def matchRFallbackAt (prev : Option Char) (t : List Char) : Option (Nat × List Char) :=
  if boundaryBefore prev then
    match t with
    | 'R' :: rest =>
      let ws := rest.takeWhile pyIsSpace
      if ws.isEmpty then none
      else
        (matchCodeDigits (rest.drop ws.length)).map
          (fun cap => (1 + ws.length + cap.length, cap))
    | _ => none
  else none

/-- All fallback-pattern matches of a text: `(start, length, code)`. -/
def ruleCodeFallbackMatches (t : Text) : List (Nat × Nat × List Char) :=
  finditerB matchRFallbackAt (t.length + 1) 0 none t

/-- `structure_agnostic_parser._extract_rule_code_format_agnostic`
(lines 116–152): tabular matches with a ±(50, 200)-character context window
as description and no per-rule conclusion; the fallback pattern is scanned
only when the strict pattern yields nothing. -/
def extractRuleCodeFormatAgnostic (t : Text) : List RawRule :=
  let toRule : Nat × Nat × List Char → RawRule := fun m =>
    ⟨m.2.2, pyStrip (sliceText t (m.1 - 50) (min t.length (m.1 + m.2.1 + 200))),
      sNA, sNA⟩
  let rules := (ruleCodeTabMatches t).map toRule
  if rules.isEmpty then (ruleCodeFallbackMatches t).map toRule
  else rules

/-- `structure_agnostic_parser.extract_rules_agnostic` (lines 11–54): both
extraction methods concatenated, the duplicate tally, and the
first-occurrence deduplication. -/
def extractRulesAgnostic (t : Text) :
    List RawRule × List (Text × Nat) :=
  let allRules := extractApplicableFormatAgnostic t ++ extractRuleCodeFormatAgnostic t
  (dedupRules allRules [], dupCounts allRules)

/-- Position test for `Violation|Rule Code` (case-sensitive), the
section-end search of `_extract_rule_code_format` (line 312). -/
def looksViolationOrRuleCode (s : List Char) : Bool :=
  ("Violation".toList.isPrefixOf s) || ("Rule Code".toList.isPrefixOf s)

/-- Position test for `analysis|conclusion` under `re.IGNORECASE` (line
246). -/
def looksAnalysisOrConclusion (s : List Char) : Bool :=
  (dropLitCI "analysis".toList s).isSome ||
    (dropLitCI "conclusion".toList s).isSome

/-- Position test for the typo fallback `anaylsis` (line 251). -/
def looksAnaylsis (s : List Char) : Bool := (dropLitCI "anaylsis".toList s).isSome

/-- `parse_special_reports._extract_applicable_rule_format` (lines 238–274):
blocks open at each `applicable rule|policy` occurrence but close at the
first following `analysis`/`conclusion` (or `anaylsis`) occurrence,
defaulting to 500 characters; rule code and stripped block text are
collected pairwise. -/
def extractApplicableRuleFormat (t : Text) : List (List Char) × List Text :=
  let idx := applicableIndices t
  let ends := idx.map (fun i =>
    match findPosFrom looksAnalysisOrConclusion (t.drop i) with
    | some p => i + p
    | none =>
      match findPosFrom looksAnaylsis (t.drop i) with
      | some p => i + p
      | none => i + 500)
  ((idx.zip ends).filterMap (fun sp =>
    let seg := sliceText t sp.1 sp.2
    match findBlockRuleCode seg with
    | some code => some (code, pyStrip seg)
    | none => none)).unzip

/-- `parse_special_reports._extract_rule_code_format` (lines 277–322):
tabular matches (with the same fallback) whose descriptions run from the
match start to the first `Violation`/`Rule Code` occurrence after 20
characters, defaulting to `min (start + 500) (len text)`. -/
def extractRuleCodeFormat (t : Text) : List (List Char) × List Text :=
  let ms := ruleCodeTabMatches t
  let ms2 := if ms.isEmpty then ruleCodeFallbackMatches t else ms
  (ms2.map (·.2.2),
   ms2.map (fun m =>
     let e :=
       match findPosFrom looksViolationOrRuleCode (t.drop (m.1 + 20)) with
       | some p => m.1 + 20 + p
       | none => min (m.1 + 500) t.length
     pyStrip (sliceText t m.1 e)))

/-- C2 (amended): the classifier assigns variant B exactly when the first
position matching `\bII\.\s+([A-Z]+)` (no earlier position matches) captures
a word starting with `METHODOLOGY` and no `III. INVESTIGATION` heading
occurs anywhere; it is total (a boolean function of the text), assigning
variant A in every other case. -/
theorem classifier_first_match_iff (t : Text) :
    isStructureB t = true ↔
      ((∃ cap p, p ≤ t.length ∧
          matchIIheadingAt (prevAt none t p) (t.drop p) = some cap ∧
          (∀ q, q < p → matchIIheadingAt (prevAt none t q) (t.drop q) = none) ∧
          "METHODOLOGY".toList.isPrefixOf cap = true) ∧
        hasIIIinvestigation t = false) := by
  unfold isStructureB
  rw [Bool.and_eq_true, Bool.not_eq_true']
  constructor
  · rintro ⟨hm, hIII⟩
    refine ⟨?_, hIII⟩
    cases hf : findIIheading t with
    | none => rw [hf] at hm; simp at hm
    | some cap =>
      rw [hf] at hm
      obtain ⟨p, hp, hmp, hq⟩ :=
        (searchFrom_eq_some_iff matchIIheadingAt none t cap).mp hf
      exact ⟨cap, p, hp, hmp, hq, hm⟩
  · rintro ⟨⟨cap, p, hp, hmp, hq, hpref⟩, hIII⟩
    refine ⟨?_, hIII⟩
    have hf : findIIheading t = some cap :=
      (searchFrom_eq_some_iff matchIIheadingAt none t cap).mpr ⟨p, hp, hmp, hq⟩
    rw [hf]
    exact hpref

/-! ## Fuzzy matching and the allegation-chain extractor
(`parse_special_reports.extract_allegation_investigation_analysis_conclusion`,
lines 121–193) -/

/-- Character comparison for case-sensitive fuzzy sections. -/
def eqCS (c l : Char) : Bool := c = l

/-- Character comparison against a lower-cased literal for case-insensitive
fuzzy sections. -/
def eqCI (c l : Char) : Bool := lowerChar c = l

/-- Exact (error-free) prefix match of a literal under a character
comparison. -/
def exactPrefixEq (eq : Char → Char → Bool) : List Char → List Char → Bool
  | [], _ => true
  | _ :: _, [] => false
  | l :: ls, c :: cs => eq c l && exactPrefixEq eq ls cs

/-- Bounded-edit prefix match modelling the `{e<2}` fuzzy sections of the
`regex` module (at most one error).  An exact continuation is preferred at
each character; at the first divergence the single error is spent —
substitution, then insertion (an extra text character), then deletion (a
missing literal character) is tried — and the remainder must match
exactly.  Returns the number of text characters consumed.  The error-order
is a documented modelling choice; every theorem below evaluates it only on
texts whose markers match exactly. -/
def fuzzyAux (eq : Char → Char → Bool) : List Char → List Char → Option Nat
  | [], _ => some 0
  | l :: ls, [] => if ls.isEmpty then some 0 else none
  | l :: ls, c :: cs =>
    if eq c l then (fuzzyAux eq ls cs).map (· + 1)
    else if exactPrefixEq eq ls cs then some (1 + ls.length)
    else if exactPrefixEq eq (l :: ls) cs then some (1 + (l :: ls).length)
    else if exactPrefixEq eq ls (c :: cs) then some ls.length
    else none

/-- Zero-width fuzzy lookahead `(?=(TOK){e<2})`. -/
def fuzzyLook (eq : Char → Char → Bool) (tok : List Char) (s : List Char) : Bool :=
  (fuzzyAux eq tok s).isSome

/-- The segment between a suffix and a later suffix of the same text. -/
def seg (t1 t2 : List Char) : List Char := t1.take (t1.length - t2.length)

/-- Lazy scan to the first suffix where the test holds (the stop suffix of a
`(.*?)(?=…)` capture). -/
def lazyStop (look : List Char → Bool) : List Char → Option (List Char)
  | [] => if look [] then some [] else none
  | c :: rest =>
    if look (c :: rest) then some (c :: rest) else lazyStop look rest

/-- Lazy scan through a fuzzy token: stop at the first suffix where the
token matches (with its preferred consumed length) and return the suffix
after the token — the tail of a `(.*?(TOK){e<2})` capture.  The token is
never empty, so the empty suffix cannot match. -/
def lazyThroughFuzzy (eq : Char → Char → Bool) (tok : List Char) :
    List Char → Option (List Char)
  | [] => none
  | c :: rest =>
    match fuzzyAux eq tok (c :: rest) with
    | some n => some ((c :: rest).drop n)
    | none => lazyThroughFuzzy eq tok rest

/-- The character class `[:\s]`. -/
def isColonSpace (c : Char) : Bool := c = ':' || pyIsSpace c

/-- Greedy `[:\s]*` with backtracking into the continuation: the longest
run is tried first, giving back one character at a time. -/
def wsBacktrackAux (cont : List Char → Option α) (s : List Char) : Nat → Option α
  | 0 => cont s
  | k + 1 => (cont (s.drop (k + 1))).orElse (fun _ => wsBacktrackAux cont s k)

/-- Greedy `[:\s]*` followed by a continuation, with full backtracking. -/
def wsBacktrack (cont : List Char → Option α) (s : List Char) : Option α :=
  wsBacktrackAux cont s (s.takeWhile isColonSpace).length

/-- Matcher at one position for the two-literal opener patterns
`(?:LIT1|LIT2)(.*?)(?=LOOK)` (DOTALL): returns the capture-start suffix and
the stop suffix (which is also the end of the whole match, the lookahead
being zero-width). -/
def matchAllegAt (lit1 lit2 : List Char) (look : List Char → Bool)
    (s : List Char) : Option (List Char × List Char) :=
  match (dropLit lit1 s).orElse (fun _ => dropLit lit2 s) with
  | none => none
  | some s1 => (lazyStop look s1).map (fun r => (s1, r))

/-- Matcher at one position for `(?:TOK){e<2}[:\s]*(.*?)(?=LOOK)` (DOTALL):
fuzzy token, greedy separator run (backtrackable), lazy capture to the
lookahead. -/
def matchSectionAt (eq : Char → Char → Bool) (tok : List Char)
    (look : List Char → Bool) (s : List Char) : Option (List Char × List Char) :=
  match fuzzyAux eq tok s with
  | none => none
  | some n =>
    wsBacktrack (fun s2 => (lazyStop look s2).map (fun r => (s2, r))) (s.drop n)

/-- Matcher at one position for `(?:CONCLUSION){e<2}[:\s]*(.*?(TOK){e<2})`
(DOTALL, IGNORECASE): the capture runs from after the separator through the
closing fuzzy token. -/
def matchConclThroughAt (opener tok : List Char) (s : List Char) :
    Option (List Char × List Char) :=
  match fuzzyAux eqCI opener s with
  | none => none
  | some n =>
    wsBacktrack (fun s2 => (lazyThroughFuzzy eqCI tok s2).map
      (fun r => (s2, r))) (s.drop n)

/-- Matcher at one position for
`((?:VIOLATION){e<2}[:\s]*.*?(ESTABLISHED){e<2})` (DOTALL, IGNORECASE): the
capture spans the whole match. -/
def matchViolEstAt (s : List Char) : Option (List Char × List Char) :=
  match fuzzyAux eqCI "violation".toList s with
  | none => none
  | some n =>
    wsBacktrack (fun s2 => (lazyThroughFuzzy eqCI "established".toList s2).map
      (fun r => (s, r))) (s.drop n)

/-- Leftmost search with a prev-independent position matcher. -/
def searchPlain (m : List Char → Option α) (t : List Char) : Option α :=
  searchFrom (fun _ s => m s) none t

/-- Python `.replace("\n", " ").replace("\r", " ").strip()`. -/
def pyReplStrip (x : Text) : Text :=
  pyStrip (x.map (fun c => if c = '\n' || c = '\r' then ' ' else c))

/-- Python `re.sub(r"^[^a-zA-Z0-9]+", "", x)`: drop the leading run of
non-alphanumeric characters. -/
def stripLead (x : Text) : Text := x.dropWhile (fun c => !isAsciiAlnum c)

/-- One pass of the allegation/investigation/analysis/conclusion loop
(lines 141–191).  Each iteration finds the four sections in order, advancing
a monotone cursor; a missing allegation, investigation or conclusion marker
ends the loop (the Python `break`, reached directly or through the bare
`except` around the loop body); a missing analysis marker yields an empty
analysis without advancing the cursor (the inner `try`). -/
def aiacLoop : Nat → List Char → List Text × List Text × List Text × List Text
  | 0, _ => ([], [], [], [])
  | fuel + 1, remaining =>
    match (searchPlain (matchAllegAt "ALLEGATION".toList
        "ADDITIONAL FINDINGS".toList
        (fuzzyLook eqCS "INVESTIGATION".toList)) remaining).orElse (fun _ =>
        searchPlain (matchAllegAt "Allegation".toList
          "Additional Findings".toList
          (fuzzyLook eqCS "Investigation".toList)) remaining) with
    | none => ([], [], [], [])
    | some (g1, r1) =>
      let allegation := pyReplStrip (seg g1 r1)
      match (searchPlain (matchSectionAt eqCS "INVESTIGATION".toList
          (fuzzyLook eqCS "APPLICABLE".toList)) r1).orElse (fun _ =>
          (searchPlain (matchSectionAt eqCS "Investigation".toList
            (fuzzyLook eqCS "Analysis".toList)) r1).orElse (fun _ =>
            searchPlain (matchSectionAt eqCI "investigation".toList
              (fuzzyLook eqCI "conclusion".toList)) r1)) with
      | none => ([], [], [], [])
      | some (g2, r2) =>
        let investigation := pyReplStrip (seg g2 r2)
        let anaOpt := (searchPlain (matchSectionAt eqCS "ANALYSIS".toList
            (fuzzyLook eqCS "CONCLUSION".toList)) r2).orElse (fun _ =>
            (searchPlain (matchSectionAt eqCS "Analysis".toList
              (fuzzyLook eqCS "Conclusion".toList)) r2).orElse (fun _ =>
              searchPlain (matchSectionAt eqCI "analysis".toList
                (fuzzyLook eqCI "violation".toList)) r2))
        let analysis := match anaOpt with
          | some (g3, r3) => pyReplStrip (seg g3 r3)
          | none => []
        let r3 := match anaOpt with
          | some (_, r3) => r3
          | none => r2
        match (searchPlain (matchConclThroughAt "conclusion".toList
            "established".toList) r3).orElse (fun _ =>
            (searchPlain matchViolEstAt r3).orElse (fun _ =>
              searchPlain (matchConclThroughAt "conclusion".toList
                "violation".toList) r3)) with
        | none => ([], [], [], [])
        | some (g4, r4) =>
          let conclusion := pyReplStrip (seg g4 r4)
          let rec4 := aiacLoop fuel r4
          (stripLead allegation :: rec4.1,
           stripLead investigation :: rec4.2.1,
           stripLead analysis :: rec4.2.2.1,
           stripLead conclusion :: rec4.2.2.2)

/-- Matcher at one position for `\bmethodology\b` (IGNORECASE), returning
the suffix after the match. -/
def matchMethodologyAt (prev : Option Char) (t : List Char) : Option (List Char) :=
  if boundaryBefore prev then
    match dropLitCI "methodology".toList t with
    | none => none
    | some rest =>
      match rest with
      | [] => some []
      | c :: _ => if isWordChar c then none else some rest
  else none

/-- Matcher at one position for `\bIV\.\b`: the trailing `\b` sits after a
non-word character, so it requires a word character next. -/
def matchIVdotAt (prev : Option Char) (t : List Char) : Option Unit :=
  if boundaryBefore prev then
    match t with
    | 'I' :: 'V' :: '.' :: c :: _ => if isWordChar c then some () else none
    | _ => none
  else none

/-- Leftmost match start position for a boundary-aware position matcher. -/
def findPosB (m : Option Char → List Char → Option Unit) :
    Option Char → List Char → Option Nat
  | prev, [] => (m prev []).map (fun _ => 0)
  | prev, c :: rest =>
    match m prev (c :: rest) with
    | some _ => some 0
    | none => (findPosB m (some c) rest).map (· + 1)

/-- `extract_allegation_investigation_analysis_conclusion` (lines 121–193):
cut at the first `\bmethodology\b`, truncate at `\bIV\.\b` when present,
then run the extraction loop. -/
def extractAIAC (text : Text) :
    List Text × List Text × List Text × List Text :=
  match searchFrom matchMethodologyAt none text with
  | none => ([], [], [], [])
  | some remaining =>
    let remaining2 :=
      match findPosB matchIVdotAt none remaining with
      | some pos => remaining.take pos
      | none => remaining
    aiacLoop (remaining2.length + 1) remaining2

/-! ## Section-bounded rule extraction dispatch
(`parse_special_reports.get_rule_codes`, lines 196–235) -/

/-- Matcher at one position for `(?:OPEN1|OPEN2)(.*?)(?:CLOSE1|CLOSE2|\Z)`
(DOTALL, case-sensitive), returning the captured group. -/
def matchSectionSpanAt (open1 open2 close1 close2 : List Char)
    (s : List Char) : Option (List Char) :=
  match (dropLit open1 s).orElse (fun _ => dropLit open2 s) with
  | none => none
  | some s1 =>
    (lazyStop (fun u => (dropLit close1 u).isSome ||
      (dropLit close2 u).isSome || u.isEmpty) s1).map (fun r => seg s1 r)

/-- Format dispatch of `get_rule_codes` (lines 230–235): the
applicable-rule format when the section mentions
`applicable rule`/`applicable policy` (lower-cased), the tabular rule-code
format otherwise. -/
def dispatchRuleFormats (sec2 : Text) : List (List Char) × List Text :=
  if containsSub "applicable rule".toList (lowerText sec2) ||
      containsSub "applicable policy".toList (lowerText sec2) then
    extractApplicableRuleFormat sec2
  else
    extractRuleCodeFormat sec2

/-- `get_rule_codes` (lines 196–235): classify the document, slice the
variant's section (`II..III` or `III..IV`, with OCR variants `ll`/`lll`/`lV`),
then dispatch on the presence of `applicable rule`/`applicable policy`. -/
def getRuleCodes (t : Text) : List (List Char) × List Text :=
  let sectOpt :=
    if isStructureB t then
      searchPlain (matchSectionSpanAt "II".toList "ll".toList
        "III".toList "lll".toList) t
    else
      searchPlain (matchSectionSpanAt "III".toList "lll".toList
        "IV".toList "lV".toList) t
  match sectOpt with
  | none => ([], [])
  | some sec => dispatchRuleFormats (pyStrip sec)

/-! ## Header field extraction
(`parse_special_reports.py`, lines 24–118 and the `basic_info` block of
`parse_single_record`, lines 357–386) -/

/-- Maximal `\s*` munch, exact whenever the following element cannot match
whitespace. -/
def wsDrop (s : List Char) : List Char :=
  s.drop (s.takeWhile pyIsSpace).length

/-- Greedy `\s*` with backtracking into the continuation. -/
def wsOnlyBacktrack (cont : List Char → Option α) (s : List Char) : Option α :=
  wsBacktrackAux cont s (s.takeWhile pyIsSpace).length

/-- First success over a list of alternatives, in order. -/
def firstSome (l : List α) (f : α → Option β) : Option β :=
  match l with
  | [] => none
  | a :: rest => (f a).orElse (fun _ => firstSome rest f)

/-- The `extract` helper (lines 24–26): first match's stripped first group,
empty when absent. -/
def extractField (m : List Char → Option Text) (t : Text) : Text :=
  match searchPlain m t with
  | some g => pyStrip g
  | none => []

/-- Matcher for `License #:\s*([A-Z]+\d+)` (IGNORECASE, so the classes
accept both cases). -/
def matchLicenseNumAt (s : List Char) : Option Text :=
  (dropLitCI "license #:".toList s).bind fun s1 =>
    let s2 := wsDrop s1
    let letters := s2.takeWhile isAsciiAlpha
    if letters.isEmpty then none
    else
      let digits := (s2.drop letters.length).takeWhile isAsciiDigit
      if digits.isEmpty then none else some (letters ++ digits)

/-- Matcher for `LABEL\s*MID\s*:?\s*([0-9A-Z]+)` (DOTALL, IGNORECASE) — the
six investigation-number patterns (lines 361–366). -/
def matchIdAt (label mid : List Char) (s : List Char) : Option Text :=
  (dropLitCI label s).bind fun s1 =>
    (dropLitCI mid (wsDrop s1)).bind fun s3 =>
      let s4 := wsDrop s3
      let s5 := match s4 with
        | ':' :: r => r
        | _ => s4
      let s6 := wsDrop s5
      let idrun := s6.takeWhile (fun c => isAsciiDigit c || isAsciiAlpha c)
      if idrun.isEmpty then none else some idrun

/-- The `or`-chain of the six investigation-number extractions
(lines 361–367): first non-empty result wins; the final fallback is the
empty string. -/
def fieldInvestigationNum (t : Text) : Text :=
  let alts : List (List Char × List Char) :=
    [("investigation".toList, "#".toList), ("si".toList, "#".toList),
     ("sir".toList, "#".toList), ("investigation".toList, "number".toList),
     ("si".toList, "number".toList), ("sir".toList, "number".toList)]
  (alts.map (fun p => extractField (matchIdAt p.1 p.2) t)).foldl
    (fun acc v => if acc.isEmpty then v else acc) []

/-- The twelve month-name literals (case-sensitive, as in the source
patterns that do not pass `re.IGNORECASE`). -/
def monthNames : List (List Char) :=
  ["January".toList, "February".toList, "March".toList, "April".toList,
   "May".toList, "June".toList, "July".toList, "August".toList,
   "September".toList, "October".toList, "November".toList, "December".toList]

/-- `MONTH \d{1,2}, \d{4}` followed by `\b`, returning the whole match. -/
def monthDateBranch (s : List Char) : Option Text :=
  firstSome monthNames (fun mn =>
    (dropLit mn s).bind fun s1 =>
      match s1 with
      | ' ' :: s2 =>
        let dd := s2.takeWhile isAsciiDigit
        if dd.isEmpty || 2 < dd.length then none
        else
          match s2.drop dd.length with
          | ',' :: ' ' :: s3 =>
            let dy := s3.takeWhile isAsciiDigit
            if dy.length ≠ 4 then none
            else
              match s3.drop 4 with
              | [] => some (mn ++ ' ' :: (dd ++ ',' :: ' ' :: dy))
              | c :: _ =>
                if isWordChar c then none
                else some (mn ++ ' ' :: (dd ++ ',' :: ' ' :: dy))
          | _ => none
      | _ => none)

/-- `\d{1,2}/\d{1,2}/\d{4}` followed by `\b`, returning the whole match. -/
def slashDate4Branch (s : List Char) : Option Text :=
  let d1 := s.takeWhile isAsciiDigit
  if d1.isEmpty || 2 < d1.length then none
  else
    match s.drop d1.length with
    | '/' :: s2 =>
      let d2 := s2.takeWhile isAsciiDigit
      if d2.isEmpty || 2 < d2.length then none
      else
        match s2.drop d2.length with
        | '/' :: s3 =>
          let dy := s3.takeWhile isAsciiDigit
          if dy.length ≠ 4 then none
          else
            match s3.drop 4 with
            | [] => some (d1 ++ '/' :: (d2 ++ '/' :: dy))
            | c :: _ =>
              if isWordChar c then none
              else some (d1 ++ '/' :: (d2 ++ '/' :: dy))
        | _ => none
    | _ => none

/-- `extract_final_report_date` (lines 59–68): first `\b`-anchored long-form
or slash-form date, returned as the whole match (group 0, unstripped). -/
def extract_final_report_date (t : Text) : Text :=
  match searchFrom (fun prev s =>
      if boundaryBefore prev then
        (monthDateBranch s).orElse (fun _ => slashDate4Branch s)
      else none) none t with
  | some g => g
  | none => []

/-- Matcher for `LAB1\s*(.*?)\s+LAB2\s*(.*?)(?:\n|$)` (IGNORECASE, DOTALL):
the shared shape of the three administrator/designee patterns
(lines 29–48), returning the two raw groups. -/
def matchPairAt (lab1 lab2 : List Char) (s : List Char) :
    Option (Text × Text) :=
  (dropLitCI lab1 s).bind fun s1 =>
    let s2 := wsDrop s1
    (lazyStop (fun u =>
        decide (1 ≤ (u.takeWhile pyIsSpace).length) &&
          (dropLitCI lab2 (wsDrop u)).isSome) s2).bind fun u =>
      let g1 := seg s2 u
      (dropLitCI lab2 (wsDrop u)).bind fun s3 =>
        let s4 := wsDrop s3
        (lazyStop (fun v => v.isEmpty || v.head? = some '\n') s4).map fun v =>
          (g1, seg s4 v)

/-- `extract_admin_and_designee` (lines 29–48): three orderings tried in
fixed priority; which pattern matched decides which capture is the designee
and which the administrator. -/
def extract_admin_and_designee (t : Text) : Text × Text :=
  match searchPlain
      (matchPairAt "administrator:".toList "licensee designee:".toList) t with
  | some (g1, g2) => (pyStrip g2, pyStrip g1)
  | none =>
    match searchPlain (matchPairAt "licensee designee:".toList
        "chief administrator:".toList) t with
    | some (g1, g2) => (pyStrip g1, pyStrip g2)
    | none =>
      match searchPlain (matchPairAt "licensee designee:".toList
          "administrator:".toList) t with
      | some (g1, g2) => (pyStrip g1, pyStrip g2)
      | none => ([], [])

/-- Matcher for `Capacity:\s*(\d+)` (IGNORECASE). -/
def matchCapacityAt (s : List Char) : Option Text :=
  (dropLitCI "capacity:".toList s).bind fun s1 =>
    let d := (wsDrop s1).takeWhile isAsciiDigit
    if d.isEmpty then none else some d

/-- `\d{1,2}/\d{1,2}/\d{2,4}` with nothing after (greedy year), returning
the match. -/
def slashDate124 (v : List Char) : Option Text :=
  let d1 := v.takeWhile isAsciiDigit
  if d1.isEmpty || 2 < d1.length then none
  else
    match v.drop d1.length with
    | '/' :: v2 =>
      let d2 := v2.takeWhile isAsciiDigit
      if d2.isEmpty || 2 < d2.length then none
      else
        match v2.drop d2.length with
        | '/' :: v3 =>
          let dy := v3.takeWhile isAsciiDigit
          if dy.length < 2 then none
          else some (d1 ++ '/' :: (d2 ++ '/' :: dy.take 4))
        | _ => none
    | _ => none

/-- Matcher for `LABEL\s*(\d{1,2}/\d{1,2}/\d{2,4})` (IGNORECASE) — the
effective/expiration/original-issuance date fields. -/
def matchLabelDateAt (label : List Char) (s : List Char) : Option Text :=
  (dropLitCI label s).bind fun s1 => slashDate124 (wsDrop s1)

/-- An optional single character (regex `X?`): taken when possible, with
backtracking to the skipping branch. -/
def optChar (p : Char → Bool) (cont : List Char → Option Text)
    (v : List Char) : Option Text :=
  match v with
  | c :: rest =>
    if p c then ((cont rest).map (fun r => c :: r)).orElse (fun _ => cont v)
    else cont v
  | [] => cont []

/-- Exactly `n` digits (regex `\d{n}`). -/
def exactDigits (n : Nat) (cont : List Char → Option Text)
    (v : List Char) : Option Text :=
  let d := v.take n
  if d.length = n && d.all isAsciiDigit then (cont (v.drop n)).map (fun r => d ++ r)
  else none

/-- The class `[-.\s]`. -/
def isSepChar (c : Char) : Bool := c = '-' || c = '.' || pyIsSpace c

/-- The phone-number group `\(?\d{3}\)?[-.\s]?\d{3}[-.\s]?\d{4}`. -/
def phonePattern (v : List Char) : Option Text :=
  optChar (· = '(')
    (exactDigits 3 (optChar (· = ')') (optChar isSepChar
      (exactDigits 3 (optChar isSepChar (exactDigits 4 (fun _ => some [])))))))
    v

/-- Matcher for `LABEL\s*(PHONE)` (IGNORECASE) — the two telephone
fields. -/
def matchPhoneAt (label : List Char) (s : List Char) : Option Text :=
  (dropLitCI label s).bind fun s1 => phonePattern (wsDrop s1)

/-- Matcher for `License Status:\s*(\w+)` (IGNORECASE). -/
def matchLicenseStatusAt (s : List Char) : Option Text :=
  (dropLitCI "license status:".toList s).bind fun s1 =>
    let w := (wsDrop s1).takeWhile isWordChar
    if w.isEmpty then none else some w

/-- Matcher for `LABEL\s*(.*?)\n` (IGNORECASE, no DOTALL): greedy `\s*`
(which may swallow newlines, backtracking as needed) followed by a
newline-free capture up to a mandatory newline. -/
def matchNameAt (label : List Char) (s : List Char) : Option Text :=
  (dropLitCI label s).bind fun s1 =>
    wsOnlyBacktrack (fun v =>
      (lazyStop (fun w => w.head? = some '\n') v).map (fun w => seg v w)) s1

/-- The first-non-empty chain of name-field alternatives. -/
def fieldChain (ms : List (List Char → Option Text)) (t : Text) : Text :=
  (ms.map (fun m => extractField m t)).foldl
    (fun acc v => if acc.isEmpty then v else acc) []

/-! ### Address extraction (`extract_address`, lines 51–56; claim C9) -/

/-- Second address group `([^\n]*MI\s+\d{5}(?:-\d{4})?)` at a fixed split of
the greedy `[^\n]*` run: `MI` (case-insensitive), mandatory whitespace
(which may include newlines), five digits, optionally `-` and four more. -/
def addrG2Core (v : List Char) (k : Nat) : Option Text :=
  (dropLitCI "mi".toList (v.drop k)).bind fun w1 =>
    let wsr := w1.takeWhile pyIsSpace
    if wsr.isEmpty then none
    else
      let w2 := w1.drop wsr.length
      let d5 := w2.takeWhile isAsciiDigit
      if d5.length < 5 then none
      else
        let w3 := w2.drop 5
        let rest := match w3 with
          | '-' :: w4 =>
            if 4 ≤ (w4.takeWhile isAsciiDigit).length then w4.drop 4 else w3
          | _ => w3
        some (seg v rest)

/-- Greedy `[^\n]*` with backtracking: longest split first. -/
def addrG2Aux (v : List Char) : Nat → Option Text
  | 0 => addrG2Core v 0
  | k + 1 => (addrG2Core v (k + 1)).orElse (fun _ => addrG2Aux v k)

/-- The whole second address group at a position. -/
def addrG2 (v : List Char) : Option Text :=
  addrG2Aux v (v.takeWhile (fun c => !(c = '\n'))).length

/-- Tail after the mandatory newline: `\s*([^\n]*MI\s+\d{5}(?:-\d{4})?)`. -/
def addrTail (u : List Char) : Option Text :=
  wsOnlyBacktrack addrG2 u

/-- Stop test for the lazy group of the address pattern: the `\n` literal
must come next and the rest of the pattern must match after it. -/
def addrLook (w : List Char) : Bool :=
  w.head? = some '\n' && (addrTail (w.drop 1)).isSome

/-- Continuation after `LABEL:\s*`: the lazy capture up to a viable `\n`,
then the tail groups, assembling the two stripped groups joined by one
space. -/
def addrCont (v : List Char) : Option Text :=
  (lazyStop addrLook v).bind fun w =>
    (addrTail (w.drop 1)).map fun g2 =>
      pyStrip (seg v w) ++ ' ' :: pyStrip g2

/-- Matcher for the whole `extract_address` pattern
`LABEL:\s*(.*?)\n\s*([^\n]*MI\s+\d{5}(?:-\d{4})?)` (IGNORECASE, DOTALL),
returning the two stripped groups joined by one space. -/
def matchAddrAt (label : List Char) (s : List Char) : Option Text :=
  (dropLitCI label s).bind fun s1 => wsOnlyBacktrack addrCont s1

/-- `extract_address` (lines 51–56). -/
def extract_address (t : Text) (label : List Char) : Text :=
  match searchPlain (matchAddrAt label) t with
  | some r => r
  | none => []

/-! ### Recommendation field (line 385) -/

/-- Zero-width test for `\bMONTH\b` at a position (months are
case-sensitive here: the pattern passes only `re.DOTALL`). -/
def matchMonthB (prev : Option Char) (w : List Char) : Bool :=
  boundaryBefore prev &&
    (firstSome monthNames (fun mn =>
      (dropLit mn w).bind (fun r =>
        match r with
        | [] => some ()
        | c :: _ => if isWordChar c then none else some ()))).isSome

/-- Position test for the lookahead `(?=_{2,}|\bMONTH\b)`. -/
def recommendationStop (prev : Option Char) (w : List Char) : Bool :=
  (match w with
   | '_' :: '_' :: _ => true
   | _ => false) || matchMonthB prev w

/-- Lazy scan to the first suffix where a boundary-aware test holds. -/
def lazyStopB (look : Option Char → List Char → Bool) :
    Option Char → List Char → Option (List Char)
  | prev, [] => if look prev [] then some [] else none
  | prev, c :: rest =>
    if look prev (c :: rest) then some (c :: rest)
    else lazyStopB look (some c) rest

/-- After `RECOMMENDATION\s*`: negative lookahead `(?!\bMONTH\b)`, then the
lazy capture to the stop lookahead. -/
def recTail (prevC : Option Char) (v : List Char) : Option Text :=
  if matchMonthB prevC v then none
  else (lazyStopB recommendationStop prevC v).map (fun w => seg v w)

/-- Greedy `\s*` after `RECOMMENDATION` with backtracking, threading the
character before each candidate position for the `\b` tests. -/
def recWsAux (s1 : List Char) : Nat → Option Text
  | 0 => recTail (some 'N') s1
  | k + 1 => (recTail s1[k]? (s1.drop (k + 1))).orElse (fun _ => recWsAux s1 k)

/-- Matcher for the recommendation pattern (line 385, case-sensitive,
DOTALL):
`RECOMMENDATION\s*(?!\bMONTH\b)(.*?)(?=_{2,}|\bMONTH\b)`. -/
def matchRecommendationAt (s : List Char) : Option Text :=
  (dropLit "RECOMMENDATION".toList s).bind fun s1 =>
    recWsAux s1 (s1.takeWhile pyIsSpace).length

/-- The recommendation field: extracted, stripped, newlines replaced by
spaces (line 385's trailing `.replace`). -/
def fieldRecommendation (t : Text) : Text :=
  (extractField matchRecommendationAt t).map
    (fun c => if c = '\n' then ' ' else c)

/-! ### Methodology-derived dates (lines 59–118) -/

/-- Lookahead `(?=\n\s*\n)`: a newline, optional whitespace, then another
newline (the second newline necessarily lies in the whitespace run). -/
def lookNlWsNl (u : List Char) : Bool :=
  match u with
  | '\n' :: r => (r.takeWhile pyIsSpace).contains '\n'
  | _ => false

/-- Stop test for the methodology-section captures:
`(?=\n\s*\n|III\.|lll\.|\Z)` under the patterns' global `(?i)`. -/
def methStopLook (u : List Char) : Bool :=
  lookNlWsNl u || (dropLitCI "iii.".toList u).isSome ||
    (dropLitCI "lll.".toList u).isSome || u.isEmpty

/-- Matcher for `(?i)\bII\.\s*METHODOLOGY\b(.*?)(?=\n\s*\n|III\.|lll\.|\Z)`
(DOTALL, line 78), returning the captured section. -/
def matchIIMethAt (prev : Option Char) (s : List Char) : Option Text :=
  if boundaryBefore prev then
    (dropLitCI "ii.".toList s).bind fun s1 =>
      (dropLitCI "methodology".toList (wsDrop s1)).bind fun s2 =>
        (match s2 with
         | [] => some ()
         | c :: _ => if isWordChar c then none else some ()).bind fun _ =>
          (lazyStop methStopLook s2).map (fun w => seg s2 w)
  else none

/-- Matcher for `(?i)\bMETHODOLOGY\b(.*?)(?=\n\s*\n|III\.|lll\.|\Z)`
(DOTALL, line 106). -/
def matchMethAt (prev : Option Char) (s : List Char) : Option Text :=
  if boundaryBefore prev then
    (dropLitCI "methodology".toList s).bind fun s2 =>
      (match s2 with
       | [] => some ()
       | c :: _ => if isWordChar c then none else some ()).bind fun _ =>
        (lazyStop methStopLook s2).map (fun w => seg s2 w)
  else none

/-- Exactly `n` digits, returned with the rest. -/
def exactDigitsStr (n : Nat) (v : List Char) : Option (Text × List Char) :=
  let d := v.take n
  if d.length = n && d.all isAsciiDigit then some (d, v.drop n) else none

/-- Matcher for `Complaint Receipt Date:\s*(\d{2}/\d{2}/\d{4})`
(case-sensitive, line 73). -/
def matchComplaintDateAt (s : List Char) : Option Text :=
  (dropLit "Complaint Receipt Date:".toList s).bind fun s1 =>
    (exactDigitsStr 2 (wsDrop s1)).bind fun p1 =>
      match p1.2 with
      | '/' :: v2 =>
        (exactDigitsStr 2 v2).bind fun p2 =>
          (match p2.2 with
           | '/' :: v4 =>
             (exactDigitsStr 4 v4).map fun p3 =>
               p1.1 ++ '/' :: (p2.1 ++ '/' :: p3.1)
           | _ => none)
      | _ => none

/-- Matcher for one `\d{1,2}/\d{1,2}/\d{2,4}` occurrence, returning the
three digit groups and the matched length (for the `findall` scan of line
83). -/
def matchDateParts (v : List Char) : Option (Nat × (Text × Text × Text)) :=
  let d1 := v.takeWhile isAsciiDigit
  if d1.isEmpty || 2 < d1.length then none
  else
    match v.drop d1.length with
    | '/' :: v2 =>
      let d2 := v2.takeWhile isAsciiDigit
      if d2.isEmpty || 2 < d2.length then none
      else
        match v2.drop d2.length with
        | '/' :: v3 =>
          let dy := v3.takeWhile isAsciiDigit
          if dy.length < 2 then none
          else
            let y := dy.take 4
            some (d1.length + d2.length + y.length + 2, (d1, d2, y))
        | _ => none
    | _ => none

/-- Decimal value of a digit string. -/
def digitsToNat (l : List Char) : Nat :=
  l.foldl (fun n c => n * 10 + (c.toNat - 48)) 0

/-- Gregorian leap year. -/
def isLeap (y : Nat) : Bool := y % 4 = 0 && (y % 100 ≠ 0 || y % 400 = 0)

/-- Days in a month. -/
def daysInMonth (m y : Nat) : Nat :=
  if m = 2 then (if isLeap y then 29 else 28)
  else if m = 4 || m = 6 || m = 9 || m = 11 then 30 else 31

/-- `datetime.strptime` on `%m/%d/%Y` then `%m/%d/%y` (lines 86–94): `%Y`
needs exactly four year digits, `%y` exactly two (pivoted at 69); month and
day are validated against the calendar; three-digit years fail both
formats.  Returns `(year, month, day)`. -/
def strptimeMDY (p : Text × Text × Text) : Option (Nat × Nat × Nat) :=
  let m := digitsToNat p.1
  let d := digitsToNat p.2.1
  let yds := p.2.2
  let yOpt : Option Nat :=
    if yds.length = 4 then some (digitsToNat yds)
    else if yds.length = 2 then
      let v := digitsToNat yds
      some (if v ≤ 68 then 2000 + v else 1900 + v)
    else none
  yOpt.bind fun y =>
    if 1 ≤ y && 1 ≤ m && m ≤ 12 && 1 ≤ d && d ≤ daysInMonth m y then
      some (y, m, d)
    else none

/-- Strict date order on `(year, month, day)`. -/
def dateLt (a b : Nat × Nat × Nat) : Bool :=
  a.1 < b.1 || (a.1 = b.1 && (a.2.1 < b.2.1 ||
    (a.2.1 = b.2.1 && a.2.2 < b.2.2)))

/-- Python `min` over parsed dates: the first minimum. -/
def minDate (l : List (Nat × Nat × Nat)) : Option (Nat × Nat × Nat) :=
  match l with
  | [] => none
  | a :: rest => some (rest.foldl (fun acc x => if dateLt x acc then x else acc) a)

/-- Decimal digits of a number (`%Y` prints the year unpadded for the
four-digit years arising here). -/
def natToDigits (n : Nat) : Text := Nat.toDigits 10 n

/-- Two-digit zero-padded field (`%m`, `%d`). -/
def pad2 (n : Nat) : Text :=
  if n < 10 then '0' :: natToDigits n else natToDigits n

/-- `strftime("%m/%d/%Y")`. -/
def fmtMDY (d : Nat × Nat × Nat) : Text :=
  pad2 d.2.1 ++ '/' :: (pad2 d.2.2 ++ '/' :: natToDigits d.1)

/-- `extract_methodology_start_date` (lines 71–100): the complaint-receipt
date if present, else the earliest parseable date in the
`II. METHODOLOGY` section. -/
def extract_methodology_start_date (t : Text) : Text :=
  match searchPlain matchComplaintDateAt t with
  | some g => g
  | none =>
    match searchFrom matchIIMethAt none t with
    | none => []
    | some mtext =>
      let parts := (finditerB (fun _ v => matchDateParts v)
        (mtext.length + 1) 0 none mtext).map (fun e => e.2.2)
      match minDate (parts.filterMap strptimeMDY) with
      | some d => fmtMDY d
      | none => []

/-- Lazy `.{0,100}?initiat` (IGNORECASE, DOTALL): `initiat` within the next
100 characters. -/
def within100Initiat : Nat → List Char → Bool
  | _, [] => false
  | budget, c :: rest =>
    (dropLitCI "initiat".toList (c :: rest)).isSome ||
      (match budget with
       | 0 => false
       | b + 1 => within100Initiat b rest)

/-- One greedy year-length candidate of
`(\d{1,2}/\d{1,2}/\d{2,4}).{0,100}?initiat`. -/
def initYearTry (d1 d2 : Text) (v3 : List Char) (k : Nat) : Option Text :=
  let dy := v3.take k
  if decide (dy.length = k) && dy.all isAsciiDigit &&
      within100Initiat 100 (v3.drop k) then
    some (d1 ++ '/' :: (d2 ++ '/' :: dy))
  else none

/-- Matcher for `(\d{1,2}/\d{1,2}/\d{2,4}).{0,100}?initiat` (IGNORECASE,
DOTALL, line 115), returning the date group. -/
def matchDateInitiatAt (v : List Char) : Option Text :=
  let d1 := v.takeWhile isAsciiDigit
  if d1.isEmpty || 2 < d1.length then none
  else
    match v.drop d1.length with
    | '/' :: v2 =>
      let d2 := v2.takeWhile isAsciiDigit
      if d2.isEmpty || 2 < d2.length then none
      else
        match v2.drop d2.length with
        | '/' :: v3 =>
          (initYearTry d1 d2 v3 4).orElse (fun _ =>
            (initYearTry d1 d2 v3 3).orElse (fun _ => initYearTry d1 d2 v3 2))
        | _ => none
    | _ => none

/-- `extract_date_before_initiat` (lines 103–118). -/
def extract_date_before_initiat (t : Text) : Text :=
  match searchFrom matchMethAt none t with
  | none => []
  | some mtext =>
    match searchPlain matchDateInitiatAt mtext with
    | some g => g
    | none => []

/-! ## Record assembly (`parse_single_record`, lines 337–423) -/

/-- First non-empty of two extracted fields (Python's `or`). -/
def orText (a b : Text) : Text := if a.isEmpty then b else a

/-- The header fields `parse_single_record` derives from the text
(lines 357–386); the file name and hash are document identity, not
extracted fields. -/
structure HeaderRecord where
  licenseNum : Text
  investigationNum : Text
  finalReportDate : Text
  administrator : Text
  licenseeDesignee : Text
  facilityName : Text
  capacity : Text
  complaintReceiptDate : Text
  investigationInitiationDate : Text
  effectiveDate : Text
  expirationDate : Text
  facilityAddress : Text
  facilityTelephone : Text
  licenseStatus : Text
  licenseeAddress : Text
  licenseeName : Text
  licenseeTelephone : Text
  originalIssuanceDate : Text
  programType : Text
  recommendation : Text
deriving DecidableEq

/-- The `basic_info` dictionary of `parse_single_record`. -/
def basicInfo (t : Text) : HeaderRecord :=
  let ad := extract_admin_and_designee t
  { licenseNum := extractField matchLicenseNumAt t
    investigationNum := fieldInvestigationNum t
    finalReportDate := extract_final_report_date t
    administrator := ad.2
    licenseeDesignee := ad.1
    facilityName := fieldChain [matchNameAt "name of facility:".toList,
      matchNameAt "agency name:".toList,
      matchNameAt "name of agency:".toList] t
    capacity := extractField matchCapacityAt t
    complaintReceiptDate := extract_methodology_start_date t
    investigationInitiationDate := extract_date_before_initiat t
    effectiveDate := extractField (matchLabelDateAt "effective date:".toList) t
    expirationDate := extractField (matchLabelDateAt "expiration date:".toList) t
    facilityAddress := orText (extract_address t "facility address:".toList)
      (extract_address t "agency address:".toList)
    facilityTelephone :=
      extractField (matchPhoneAt "facility telephone #:".toList) t
    licenseStatus := lowerText (extractField matchLicenseStatusAt t)
    licenseeAddress := orText (extract_address t "licensee address:".toList)
      (extract_address t "licenseeaddress:".toList)
    licenseeName := fieldChain [matchNameAt "licensee name:".toList,
      matchNameAt "licensee group organization:".toList,
      matchNameAt "licenseename:".toList] t
    licenseeTelephone :=
      orText (extractField (matchPhoneAt "licensee telephone #:".toList) t)
        (extractField (matchPhoneAt "licenseetelephone #:".toList) t)
    originalIssuanceDate :=
      extractField (matchLabelDateAt "original issuance date:".toList) t
    programType := extractField (matchNameAt "program type:".toList) t
    recommendation := fieldRecommendation t }

/-- One allegation row (lines 391–400). -/
structure AllegationRec where
  number : Nat
  allegation : Text
  investigation : Text
  analysis : Text
  conclusion : Text
  violation_established : Text
deriving DecidableEq

/-- One rule row (lines 405–415). -/
structure RuleRec where
  number : Nat
  rule_code : Text
  description : Text
  conclusion : Text
  violation_established : Text
deriving DecidableEq

/-- Python `zip` over the four extractor lists (truncating). -/
def zip4 : List α → List β → List γ → List δ → List (α × β × γ × δ)
  | a :: as2, b :: bs, c :: cs, d :: ds => (a, b, c, d) :: zip4 as2 bs cs ds
  | _, _, _, _ => []

/-- The allegation-row loop with its 1-based `enumerate`. -/
def allegationsRows (i : Nat) : List (Text × Text × Text × Text) → List AllegationRec
  | [] => []
  | (a, inv, an, co) :: rest =>
    ⟨i, a, inv, an, co, violationAlleg co⟩ :: allegationsRows (i + 1) rest

/-- The `allegations_data` list of `parse_single_record` (lines 391–400). -/
def allegationsData (t : Text) : List AllegationRec :=
  let q := extractAIAC t
  allegationsRows 1 (zip4 q.1 q.2.1 q.2.2.1 q.2.2.2)

/-- The rule-row loop (lines 405–415): the `i`-th citation (1-based) takes
the `i`-th extracted conclusion, `"N/A"` past the end. -/
def rulesRows (concls : List Text) (i : Nat) : List (Text × Text) → List RuleRec
  | [] => []
  | (code, desc) :: rest =>
    let co := concls.getD (i - 1) sNA
    ⟨i, code, desc, co, violationRule co⟩ :: rulesRows concls (i + 1) rest

/-- The `rules_data` list of `parse_single_record`. -/
def rulesData (t : Text) : List RuleRec :=
  let q := getRuleCodes t
  rulesRows (extractAIAC t).2.2.2 1 (q.1.zip q.2)

/-- The parsed-document record of `parse_single_record` (lines 417–423);
the raw text field is the joined input. -/
structure ParsedDocument where
  basic_info : HeaderRecord
  allegations : List AllegationRec
  rules : List RuleRec
  mismatch : Bool
deriving DecidableEq

/-- `"\n".join(record['text'])` (line 352). -/
def joinPages : List Text → Text
  | [] => []
  | [p] => p
  | p :: rest => p ++ '\n' :: joinPages rest

/-- `parse_single_record` (lines 337–423) as a function of the record's
page texts. -/
def parse_single_record (pages : List Text) : ParsedDocument :=
  let text := joinPages pages
  let ad := allegationsData text
  let rd := rulesData text
  { basic_info := basicInfo text
    allegations := ad
    rules := rd
    mismatch := ad.length != rd.length }

/-! ## Block-span structure lemmas (claim C6) -/

theorem blockSpans_length (tl : Nat) (idx : List Nat) :
    (blockSpans tl idx).length = idx.length := by
  induction idx with
  | nil => simp [blockSpans]
  | cons p tail ih =>
    cases tail with
    | nil => simp [blockSpans]
    | cons q rest => simpa [blockSpans] using ih

theorem blockSpans_get? (tl : Nat) (idx : List Nat) (i : Nat) (a b : Nat)
    (ha : idx[i]? = some a) (hb : idx[i + 1]? = some b) :
    (blockSpans tl idx)[i]? = some (a, b) := by
  induction idx generalizing i with
  | nil => simp at ha
  | cons p tail ih =>
    cases tail with
    | nil =>
      cases i with
      | zero => simp at hb
      | succ j => simp at ha
    | cons q rest =>
      cases i with
      | zero =>
        simp only [List.getElem?_cons_zero, Option.some.injEq] at ha
        simp only [List.getElem?_cons_succ, List.getElem?_cons_zero,
          Option.some.injEq] at hb
        subst ha
        subst hb
        simp [blockSpans]
      | succ j =>
        have ha2 : (q :: rest)[j]? = some a := by
          simp only [List.getElem?_cons_succ] at ha
          exact ha
        have hb2 : (q :: rest)[j + 1]? = some b := by
          have : (p :: q :: rest)[j + 1 + 1]? = (q :: rest)[j + 1]? :=
            List.getElem?_cons_succ
          rw [← this]
          exact hb
        simpa [blockSpans] using ih j ha2 hb2

theorem blockSpans_getLast? (tl : Nat) (idx : List Nat) (a : Nat)
    (ha : idx.getLast? = some a) :
    (blockSpans tl idx).getLast? = some (a, min tl (a + 2000)) := by
  induction idx with
  | nil => simp at ha
  | cons p tail ih =>
    cases tail with
    | nil =>
      simp only [List.getLast?_singleton, Option.some.injEq] at ha
      subst ha
      simp [blockSpans]
    | cons q rest =>
      have ha2 : (q :: rest).getLast? = some a := by
        rw [List.getLast?_cons_cons] at ha
        exact ha
      have htail := ih ha2
      have hne : blockSpans tl (q :: rest) ≠ [] := by
        intro h
        have := blockSpans_length tl (q :: rest)
        rw [h] at this
        simp at this
      obtain ⟨y, ys, hys⟩ := List.exists_cons_of_ne_nil hne
      simp only [blockSpans, hys]
      rw [List.getLast?_cons_cons]
      rw [← hys]
      exact htail

/-! ## Occurrence-scan lemmas (claim C6) -/

theorem dropLitCI_append (l1 l2 s : List Char) :
    dropLitCI (l1 ++ l2) s = (dropLitCI l1 s).bind (dropLitCI l2) := by
  induction l1 generalizing s with
  | nil => simp [dropLitCI]
  | cons c cs ih =>
    cases s with
    | nil => simp [dropLitCI]
    | cons d ds =>
      simp only [List.cons_append, dropLitCI]
      by_cases h : lowerChar d = c
      · simp [h, ih]
      · simp [h]

theorem dropLitCI_some_spec {lit s r : List Char}
    (h : dropLitCI lit s = some r) :
    lowerText (s.take lit.length) = lit ∧ lit.length ≤ s.length ∧
      s.drop lit.length = r := by
  induction lit generalizing s with
  | nil =>
    simp only [dropLitCI, Option.some.injEq] at h
    subst h
    simp [lowerText]
  | cons c cs ih =>
    cases s with
    | nil => simp [dropLitCI] at h
    | cons d ds =>
      simp only [dropLitCI] at h
      by_cases hc : lowerChar d = c
      · rw [if_pos hc] at h
        obtain ⟨h1, h2, h3⟩ := ih h
        refine ⟨?_, by simpa using Nat.succ_le_succ h2, by simpa using h3⟩
        simp only [List.length_cons, List.take_succ_cons, lowerText,
          List.map_cons, hc]
        simpa [lowerText] using h1
      · rw [if_neg hc] at h
        simp at h

/-- Inversion for a successful `matchApplicableAt`: the full (15- or
17-character) literal matched case-insensitively at this position. -/
theorem matchApplicableAt_some_spec {s : List Char} {len : Nat} {u : Unit}
    (h : matchApplicableAt s = some (len, u)) :
    (len = 15 ∧ lowerText (s.take 15) = "applicable rule".toList ∧ 15 ≤ s.length) ∨
    (len = 17 ∧ lowerText (s.take 17) = "applicable policy".toList ∧ 17 ≤ s.length) := by
  unfold matchApplicableAt at h
  cases h1 : dropLitCI "applicable ".toList s with
  | none => rw [h1] at h; simp at h
  | some t1 =>
    rw [h1] at h
    simp only at h
    by_cases h2 : (dropLitCI "rule".toList t1).isSome
    · rw [if_pos h2] at h
      simp only [Option.some.injEq, Prod.mk.injEq] at h
      left
      refine ⟨h.1.symm, ?_⟩
      obtain ⟨r2, hr2⟩ := Option.isSome_iff_exists.mp h2
      have hfull : dropLitCI ("applicable ".toList ++ "rule".toList) s = some r2 := by
        rw [dropLitCI_append, h1]
        simpa using hr2
      have := dropLitCI_some_spec hfull
      constructor
      · have h15 : ("applicable ".toList ++ "rule".toList) = "applicable rule".toList := by decide
        rw [h15] at this
        exact this.1
      · have := this.2.1
        simpa using this
    · rw [if_neg h2] at h
      by_cases h3 : (dropLitCI "policy".toList t1).isSome
      · rw [if_pos h3] at h
        simp only [Option.some.injEq, Prod.mk.injEq] at h
        right
        refine ⟨h.1.symm, ?_⟩
        obtain ⟨r2, hr2⟩ := Option.isSome_iff_exists.mp h3
        have hfull : dropLitCI ("applicable ".toList ++ "policy".toList) s = some r2 := by
          rw [dropLitCI_append, h1]
          simpa using hr2
        have := dropLitCI_some_spec hfull
        constructor
        · have h17 : ("applicable ".toList ++ "policy".toList) = "applicable policy".toList := by decide
          rw [h17] at this
          exact this.1
        · have := this.2.1
          simpa using this
      · rw [if_neg h3] at h
        simp at h

/-- Inversion in the other direction: a successful `matchApplicableAt`
requires the 11-character `applicable ` literal. -/
theorem matchApplicableAt_needs_lit {s : List Char} {len : Nat} {u : Unit}
    (h : matchApplicableAt s = some (len, u)) :
    lowerText (s.take 11) = "applicable ".toList := by
  unfold matchApplicableAt at h
  cases h1 : dropLitCI "applicable ".toList s with
  | none => rw [h1] at h; simp at h
  | some t1 =>
    have := dropLitCI_some_spec h1
    simpa using this.1

/-- Finite check behind the no-overlap argument: no strict suffix of either
full literal, restricted to its first 11 characters, agrees with the
corresponding prefix of `applicable `. -/
theorem applicable_overlap_check :
    (∀ d, d < 15 → 1 ≤ d →
      ¬ (("applicable rule".toList.drop d).take 11 =
          "applicable ".toList.take (min 11 ("applicable rule".toList.drop d).length))) ∧
    (∀ d, d < 17 → 1 ≤ d →
      ¬ (("applicable policy".toList.drop d).take 11 =
          "applicable ".toList.take (min 11 ("applicable policy".toList.drop d).length))) := by
  decide

/-- Core of the no-overlap argument: if the lowered `n`-character prefix of
`s` is `lit` and position `d` (strictly inside it) also starts a lowered
`applicable ` literal, then a strict suffix of `lit` agrees with the
corresponding prefix of `applicable `. -/
theorem overlap_core {s : List Char} {n d : Nat} (lit : List Char)
    (hn : lit.length = n) (hs : lowerText (s.take n) = lit)
    (hq11 : lowerText ((s.drop d).take 11) = "applicable ".toList)
    (hd2 : d < n) :
    (lit.drop d).take 11 =
      "applicable ".toList.take (min 11 (lit.drop d).length) := by
  have hns : n ≤ s.length := by
    have := congrArg List.length hs
    simp only [lowerText, List.length_map, List.length_take] at this
    omega
  have hAlen : (s.take n).length = n := by
    rw [List.length_take]
    omega
  have hsplit : s.drop d =
      (s.take n).drop d ++ (s.drop n).drop (d - (s.take n).length) := by
    conv_lhs => rw [← List.take_append_drop n s]
    rw [List.drop_append_eq_append_drop]
  rw [hAlen] at hsplit
  have hd0 : d - n = 0 := by omega
  rw [hd0, List.drop_zero] at hsplit
  have htake : (s.drop d).take 11 =
      ((s.take n).drop d).take 11 ++
        (s.drop n).take (11 - ((s.take n).drop d).length) := by
    rw [hsplit, List.take_append_eq_append_take]
  rw [htake] at hq11
  simp only [lowerText, List.map_append, List.map_take, List.map_drop] at hq11 hs
  rw [hs] at hq11
  have hlen11 := congrArg (List.take ((lit.drop d).take 11).length) hq11
  rw [List.take_left] at hlen11
  rw [hlen11, List.length_take]

/-- No occurrence of `applicable rule`/`applicable policy` starts strictly
inside another occurrence's matched span. -/
theorem matchApplicableAt_no_overlap {t0 : Text} {p q lp lq : Nat} {a b : Unit}
    (hp : matchApplicableAt (t0.drop p) = some (lp, a))
    (hq : matchApplicableAt (t0.drop q) = some (lq, b))
    (h1 : p < q) (h2 : q < p + lp) : False := by
  have hdrop : t0.drop q = (t0.drop p).drop (q - p) := by
    rw [List.drop_drop]
    congr 1
    omega
  have hq11 := matchApplicableAt_needs_lit hq
  rw [hdrop] at hq11
  rcases matchApplicableAt_some_spec hp with ⟨hlen, hlit, hsl⟩ | ⟨hlen, hlit, hsl⟩
  · exact applicable_overlap_check.1 (q - p) (by omega) (by omega)
      (overlap_core "applicable rule".toList (by decide) hlit hq11 (by omega))
  · exact applicable_overlap_check.2 (q - p) (by omega) (by omega)
      (overlap_core "applicable policy".toList (by decide) hlit hq11 (by omega))

/-- Soundness of the `finditer` scan for a prev-independent matcher: every
reported entry is an actual match at its reported position. -/
theorem finditerB_sound (m : List Char → Option (Nat × α)) :
    ∀ fuel pos prev (t : List Char) st len a,
      (st, len, a) ∈ finditerB (fun _ s => m s) fuel pos prev t →
      ∃ d, st = pos + d ∧ m (t.drop d) = some (len, a) := by
  intro fuel
  induction fuel with
  | zero =>
    intro pos prev t st len a h
    simp [finditerB] at h
  | succ f ih =>
    intro pos prev t st len a h
    simp only [finditerB] at h
    split at h
    · rename_i l0 a0 hm
      by_cases hl : l0 = 0
      · rw [if_pos hl] at h
        simp at h
      · rw [if_neg hl] at h
        rcases List.mem_cons.mp h with he | htail
        · simp only [Prod.mk.injEq] at he
          obtain ⟨h1, h2, h3⟩ := he
          subst h1
          subst h2
          subst h3
          exact ⟨0, by omega, by rw [List.drop_zero]; simpa using hm⟩
        · obtain ⟨d2, hd1, hd2⟩ := ih _ _ _ _ _ _ htail
          refine ⟨l0 + d2, by omega, ?_⟩
          have hdd : (t.drop l0).drop d2 = t.drop (l0 + d2) := by
            rw [List.drop_drop]
          rw [← hdd]
          exact hd2
    · rename_i hm
      cases t with
      | nil => simp at h
      | cons c rest =>
        obtain ⟨d2, hd1, hd2⟩ := ih _ _ _ _ _ _ h
        exact ⟨d2 + 1, by omega, by simpa using hd2⟩

/-- Completeness of the `finditer` scan for a prev-independent matcher
whose matches never start strictly inside another match and always consume
at least one character inside the text. -/
theorem finditerB_complete (m : List Char → Option (Nat × α)) (t0 : List Char)
    (hno : ∀ p q lp a lq b, m (t0.drop p) = some (lp, a) →
      m (t0.drop q) = some (lq, b) → p < q → q < p + lp → False)
    (hgood : ∀ p l a, m (t0.drop p) = some (l, a) → 1 ≤ l ∧ p < t0.length) :
    ∀ fuel k prev p l a, t0.length + 1 ≤ fuel + k → k ≤ p →
      m (t0.drop p) = some (l, a) →
      (p, l, a) ∈ finditerB (fun _ s => m s) fuel k prev (t0.drop k) := by
  intro fuel
  induction fuel with
  | zero =>
    intro k prev p l a hfk hkp hm
    have := (hgood p l a hm).2
    omega
  | succ f ih =>
    intro k prev p l a hfk hkp hm
    simp only [finditerB]
    cases hmk : m (t0.drop k) with
    | some la =>
      obtain ⟨lk, ak⟩ := la
      have hlk1 : 1 ≤ lk := (hgood k lk ak hmk).1
      simp only [hmk]
      rw [if_neg (by omega)]
      by_cases hpk : p = k
      · subst hpk
        rw [hm] at hmk
        simp only [Option.some.injEq, Prod.mk.injEq] at hmk
        obtain ⟨h1, h2⟩ := hmk
        subst h1
        subst h2
        exact List.mem_cons_self _ _
      · have hplt : k + lk ≤ p := by
          by_contra hcon
          push_neg at hcon
          exact hno k p lk ak l a hmk hm (by omega) (by omega)
        have hdd : (t0.drop k).drop lk = t0.drop (k + lk) := by
          rw [List.drop_drop]
        have hrec := ih (k + lk) (lastPrev prev ((t0.drop k).take lk)) p l a
          (by omega) (by omega) hm
        rw [← hdd] at hrec
        exact List.mem_cons_of_mem _ hrec
    | none =>
      have hpk : p ≠ k := by
        intro he
        rw [he, hmk] at hm
        exact Option.noConfusion hm
      simp only [hmk]
      cases ht : t0.drop k with
      | nil =>
        exfalso
        have hlen : t0.length ≤ k := by
          have := congrArg List.length ht
          simp only [List.length_drop, List.length_nil] at this
          omega
        have := (hgood p l a hm).2
        omega
      | cons c rest =>
        have hrest : rest = t0.drop (k + 1) := by
          have h1 : (t0.drop k).drop 1 = t0.drop (k + 1) := by
            rw [List.drop_drop]
          rw [ht] at h1
          simpa using h1
        have hrec := ih (k + 1) (some c) p l a (by omega) (by omega) hm
        rw [← hrest] at hrec
        exact hrec

/-- Every reported block-opening index is an actual case-insensitive
occurrence of `applicable rule`/`applicable policy`. -/
theorem applicableIndices_sound (t : Text) (p : Nat)
    (hp : p ∈ applicableIndices t) :
    ∃ len, matchApplicableAt (t.drop p) = some (len, ()) := by
  unfold applicableIndices at hp
  obtain ⟨entry, hmem, hfst⟩ := List.mem_map.mp hp
  obtain ⟨st, len, a⟩ := entry
  obtain ⟨d, hd1, hd2⟩ := finditerB_sound matchApplicableAt _ _ _ _ _ _ _ hmem
  refine ⟨len, ?_⟩
  have hdp : d = p := by
    simp only at hfst
    omega
  subst hdp
  exact hd2

/-- Every case-insensitive occurrence of `applicable rule`/`applicable
policy` is reported as a block-opening index. -/
theorem applicableIndices_complete (t : Text) (p len : Nat)
    (h : matchApplicableAt (t.drop p) = some (len, ())) :
    p ∈ applicableIndices t := by
  unfold applicableIndices
  have hgood : ∀ q l a, matchApplicableAt (t.drop q) = some (l, a) →
      1 ≤ l ∧ q < t.length := by
    intro q l a hq
    rcases matchApplicableAt_some_spec hq with ⟨h1, _, h3⟩ | ⟨h1, _, h3⟩ <;>
      simp only [List.length_drop] at h3 <;> omega
  have hmem := finditerB_complete matchApplicableAt t
    (fun p q lp a lq b hp hq h1 h2 => matchApplicableAt_no_overlap hp hq h1 h2)
    hgood (t.length + 1) 0 none p len () (by omega) (by omega) h
  rw [List.drop_zero] at hmem
  exact List.mem_map.mpr ⟨(p, len, ()), hmem, rfl⟩

/-- C6 (amended): in the structure-agnostic extractor and the
duplicate-consistency checker, the block openers are exactly the
case-insensitive occurrences of `applicable rule`/`applicable policy`
(each occurrence opens a block and nothing else does), each non-final
block's span extends exactly to the start of the next occurrence, and the
final block's span extends a fixed 2000-character lookahead truncated at
end of text.  `parse_special_reports._extract_applicable_rule_format`
instead closes blocks at `analysis`/`conclusion`/`anaylsis` or after 500
characters (see the counterexample). -/
theorem agnostic_block_structure (t : Text) :
    (∀ p, p ∈ applicableIndices t ↔
        ∃ len, matchApplicableAt (t.drop p) = some (len, ())) ∧
    (blockSpans t.length (applicableIndices t)).length =
      (applicableIndices t).length ∧
    (∀ i a b, (applicableIndices t)[i]? = some a →
      (applicableIndices t)[i + 1]? = some b →
      (blockSpans t.length (applicableIndices t))[i]? = some (a, b)) ∧
    (∀ a, (applicableIndices t).getLast? = some a →
      (blockSpans t.length (applicableIndices t)).getLast? =
        some (a, min t.length (a + 2000))) := by
  refine ⟨?_, blockSpans_length _ _,
    fun i a b ha hb => blockSpans_get? _ _ i a b ha hb,
    fun a ha => blockSpans_getLast? _ _ a ha⟩
  intro p
  constructor
  · exact applicableIndices_sound t p
  · rintro ⟨len, hlen⟩
    exact applicableIndices_complete t p len hlen

/-! ## Alignment of parallel extractor outputs (claim C10) -/

theorem aiacLoop_lengths (fuel : Nat) : ∀ r,
    (aiacLoop fuel r).1.length = (aiacLoop fuel r).2.1.length ∧
    (aiacLoop fuel r).2.1.length = (aiacLoop fuel r).2.2.1.length ∧
    (aiacLoop fuel r).2.2.1.length = (aiacLoop fuel r).2.2.2.length := by
  induction fuel with
  | zero => intro r; simp [aiacLoop]
  | succ f ih =>
    intro r
    simp only [aiacLoop]
    split
    · simp
    · split
      · simp
      · split
        · simp
        · rename_i gg rr heqq
          have h123 := ih rr
          simp only [List.length_cons]
          omega

/-- C10: every extractor returns aligned parallel collections — the four
lists of `extract_allegation_investigation_analysis_conclusion` have equal
length (each loop iteration appends to all four or stops before appending
to any), and `get_rule_codes` and its two sub-format extractors return
rule-code and description lists of equal length. -/
theorem extractor_alignment (t : Text) :
    ((extractAIAC t).1.length = (extractAIAC t).2.1.length ∧
     (extractAIAC t).2.1.length = (extractAIAC t).2.2.1.length ∧
     (extractAIAC t).2.2.1.length = (extractAIAC t).2.2.2.length) ∧
    (getRuleCodes t).1.length = (getRuleCodes t).2.length ∧
    (extractApplicableRuleFormat t).1.length =
      (extractApplicableRuleFormat t).2.length ∧
    (extractRuleCodeFormat t).1.length = (extractRuleCodeFormat t).2.length := by
  have haiac : ∀ u : Text,
      (extractAIAC u).1.length = (extractAIAC u).2.1.length ∧
      (extractAIAC u).2.1.length = (extractAIAC u).2.2.1.length ∧
      (extractAIAC u).2.2.1.length = (extractAIAC u).2.2.2.length := by
    intro u
    unfold extractAIAC
    split
    · simp
    · split <;> exact aiacLoop_lengths _ _
  have happ : ∀ u : Text, (extractApplicableRuleFormat u).1.length =
      (extractApplicableRuleFormat u).2.length := by
    intro u
    unfold extractApplicableRuleFormat
    simp
  have hrcf : ∀ u : Text, (extractRuleCodeFormat u).1.length =
      (extractRuleCodeFormat u).2.length := by
    intro u
    unfold extractRuleCodeFormat
    simp
  refine ⟨haiac t, ?_, happ t, hrcf t⟩
  have hdisp : ∀ sec2 : Text, (dispatchRuleFormats sec2).1.length =
      (dispatchRuleFormats sec2).2.length := by
    intro sec2
    unfold dispatchRuleFormats
    split
    · exact happ _
    · exact hrcf _
  simp only [getRuleCodes]
  split
  · simp
  · exact hdisp _

/-! ## Rule/conclusion ordinal pairing (claim C7) -/

theorem rulesRows_spec (concls : List Text) :
    ∀ (pairs : List (Text × Text)) (i0 j : Nat),
      (rulesRows concls i0 pairs)[j]? = (pairs[j]?).map (fun p =>
        let co := concls.getD (i0 + j - 1) sNA
        ⟨i0 + j, p.1, p.2, co, violationRule co⟩) := by
  intro pairs
  induction pairs with
  | nil => intro i0 j; simp [rulesRows]
  | cons p rest ih =>
    intro i0 j
    obtain ⟨code, desc⟩ := p
    cases j with
    | zero => simp [rulesRows]
    | succ j2 =>
      simp only [rulesRows, List.getElem?_cons_succ]
      rw [ih (i0 + 1) j2]
      have h1 : i0 + 1 + j2 = i0 + (j2 + 1) := by omega
      rw [h1]

/-- C7: the `i`-th extracted rule citation (1-based) is paired with the
conclusion of the `i`-th allegation quad by ordinal index (its rule code
and description are the `i`-th entries of `get_rule_codes`, chosen
independently of the code value); when `i` exceeds the number of extracted
conclusions, the citation's conclusion is the sentinel `"N/A"` and its
violation status is `"N/A"`. -/
theorem rule_citation_pairing (t : Text) (j : Nat) (r : RuleRec)
    (h : (rulesData t)[j]? = some r) :
    r.number = j + 1 ∧
    r.conclusion = ((extractAIAC t).2.2.2).getD j sNA ∧
    r.violation_established = violationRule r.conclusion ∧
    (((extractAIAC t).2.2.2).length ≤ j →
      r.conclusion = sNA ∧ r.violation_established = sNA) ∧
    (∀ p, ((getRuleCodes t).1.zip (getRuleCodes t).2)[j]? = some p →
      r.rule_code = p.1 ∧ r.description = p.2) := by
  unfold rulesData at h
  rw [rulesRows_spec] at h
  cases hz : ((getRuleCodes t).1.zip (getRuleCodes t).2)[j]? with
  | none => rw [hz] at h; simp at h
  | some p =>
    rw [hz] at h
    rw [show (1 : Nat) + j - 1 = j from by omega] at h
    simp only [Option.map_some', Option.some.injEq] at h
    subst h
    refine ⟨by show 1 + j = j + 1; omega, rfl, rfl, ?_, ?_⟩
    · intro hlen
      have hd : ((extractAIAC t).2.2.2).getD j sNA = sNA :=
        List.getD_eq_default _ _ hlen
      constructor
      · show ((extractAIAC t).2.2.2).getD j sNA = sNA
        exact hd
      · show violationRule (((extractAIAC t).2.2.2).getD j sNA) = sNA
        rw [hd]
        decide
    · intro p2 hp2
      injection hp2 with hp3
      subst hp3
      exact ⟨rfl, rfl⟩

/-- Concrete structure-B document with one rule citation and no allegation
quads, exercising `rule_citation_pairing`. -/
def pairingDoc : Text :=
  "II. METHODOLOGY APPLICABLE RULE R 400.1234 analysis ok".toList

theorem rule_citation_pairing_witness :
    ∃ r, (rulesData pairingDoc)[0]? = some r ∧
      r.conclusion = sNA ∧ r.violation_established = sNA := by
  cases hr : (rulesData pairingDoc)[0]? with
  | none => exact absurd hr (by decide)
  | some r =>
    have h := rule_citation_pairing pairingDoc 0 r hr
    exact ⟨r, rfl, (h.2.2.2.1 (by decide)).1, (h.2.2.2.1 (by decide)).2⟩

/-! ## Determinism and purity of the parse (claim C8) -/

/-- Corpus processing: each record is parsed independently (the Python
batch loop calls `parse_single_record` on each record with no other
inputs). -/
def parseCorpus (docs : List (List Text)) : List ParsedDocument :=
  docs.map parse_single_record

/-- C8: parsing is deterministic and idempotent — the parse of a record is
a pure function of its page texts: within any corpus, positions holding
identical inputs yield identical `ParsedDocument`s, and the output at a
position depends only on the input at that position, not on the documents
processed before or after it. -/
theorem parse_deterministic (docs : List (List Text)) (i j : Nat)
    (hij : docs[i]? = docs[j]?) :
    (parseCorpus docs)[i]? = (parseCorpus docs)[j]? ∧
    ∀ pre pages post, parseCorpus (pre ++ pages :: post) =
      parseCorpus pre ++ parse_single_record pages :: parseCorpus post := by
  constructor
  · simp only [parseCorpus, List.getElem?_map, hij]
  · intro pre pages post
    simp [parseCorpus]

theorem parse_deterministic_witness :
    (parseCorpus [["a".toList], ["b".toList], ["a".toList]])[0]? =
      (parseCorpus [["a".toList], ["b".toList], ["a".toList]])[2]? := by
  exact (parse_deterministic [["a".toList], ["b".toList], ["a".toList]] 0 2
    (by decide)).1

/-! ## Missing markers and the empty parse (claim C5) -/

/-- The header record with every field empty. -/
def emptyHeaderRecord : HeaderRecord :=
  ⟨[], [], [], [], [], [], [], [], [], [], [], [], [], [], [], [], [], [], [], []⟩

/-- C5: extraction is total and abort-free — a missing methodology marker
yields four empty allegation lists, a missing section marker yields empty
rule lists, and on a text with no recognizable section markers the whole
parse returns an empty header record, zero allegations, zero rule
citations, and a mismatch flag of `false`. -/
theorem parse_missing_markers :
    (∀ t, searchFrom matchMethodologyAt none t = none →
      extractAIAC t = ([], [], [], [])) ∧
    (∀ t, isStructureB t = false →
      searchPlain (matchSectionSpanAt "III".toList "lll".toList
        "IV".toList "lV".toList) t = none →
      getRuleCodes t = ([], [])) ∧
    parse_single_record ["hello world".toList] =
      { basic_info := emptyHeaderRecord, allegations := [], rules := [],
        mismatch := false } := by
  refine ⟨?_, ?_, by decide⟩
  · intro t h
    unfold extractAIAC
    rw [h]
  · intro t hB hs
    unfold getRuleCodes
    rw [hB]
    simp only [Bool.false_eq_true, if_false]
    rw [hs]

theorem parse_missing_markers_witness :
    extractAIAC "xyz".toList = ([], [], [], []) ∧
    getRuleCodes "xyz".toList = ([], []) := by
  exact ⟨(parse_missing_markers).1 "xyz".toList (by decide),
    (parse_missing_markers).2.1 "xyz".toList (by decide) (by decide)⟩

/-! ## Violation status of parsed allegation records (claim C1) -/

/-- Concrete document whose single allegation quad's conclusion ends at a
`VIOLATION` token and contains neither `not` nor `established`. -/
def c1text : Text :=
  ("methodology ALLEGATION bad acts INVESTIGATION: looked into it " ++
   "APPLICABLE RULE R 400.1111 ANALYSIS: weighed CONCLUSION: a VIOLATION " ++
   "occurred end").toList

/-- C1 counterexample: `parse_single_record` assigns this allegation record
the status `"Yes"` (its rule is `"No" if "not" in concl else "Yes"`), while
the claim's tri-state rule assigns Unknown (`"N/A"`) to a conclusion with
no `established`; so the claimed single rule does not govern
`parse_single_record`'s AllegationRecords. -/
theorem allegation_status_counterexample :
    ((parse_single_record [c1text]).allegations.map
      (fun a => (a.conclusion, a.violation_established)) =
      [("a VIOLATION".toList, "Yes".toList)]) ∧
    specTriState "a VIOLATION".toList = sNA ∧
    "Yes".toList ≠ sNA := by
  decide

/-- C6 counterexample: on a text with a single `applicable rule` block whose
rule code sits after the word `analysis`, `parse_special_reports`'
`_extract_applicable_rule_format` extracts nothing (its block closes at
`analysis`, not after a 2000-character lookahead), while the
structure-agnostic extractor — whose blocks do extend 2000 characters —
finds the code, refuting the claim that every block-format extractor's
blocks extend to the next occurrence or a 2000-character lookahead. -/
theorem block_format_counterexample :
    extractApplicableRuleFormat
      "applicable rule analysis R 400.1234".toList = ([], []) ∧
    (extractApplicableFormatAgnostic
      "applicable rule analysis R 400.1234".toList).map RawRule.code =
      ["400.1234".toList] := by
  decide

/-- Concrete text for claim C4's scenario: `Rule Code & CCI Rule 400.5678`
twice, with conclusion sentences that would resolve to Yes then No had they
been attached to the citations. -/
def scenarioTabText : Text :=
  ("Rule Code & CCI Rule 400.5678 CONCLUSION: Violation established. " ++
   "Rule Code & CCI Rule 400.5678 CONCLUSION: Violation not established.").toList

/-- C4 counterexample: on the scenario text, deduplication does yield one
citation with code `400.5678` and mention count 2, but both tabular-format
mentions carry status `"N/A"` (the tabular format attaches no per-citation
conclusion), and the consistency checker — which only scans
`applicable rule`/`applicable policy` blocks — extracts no mentions at all
and flags nothing, so the claimed consistency flag is false, not true. -/
theorem duplicate_scenario_counterexample :
    ((extractRulesAgnostic scenarioTabText).1.map RawRule.code =
      ["400.5678".toList]) ∧
    lookupCount (extractRulesAgnostic scenarioTabText).2 "400.5678".toList = 2 ∧
    ((extractRulesAgnostic scenarioTabText).1.map RawRule.status = [sNA]) ∧
    extractAllRulesWithStatus scenarioTabText = [] ∧
    inconsistenciesOf (extractAllRulesWithStatus scenarioTabText) = [] := by
  decide

/-! ### Claim C9: address extraction -/

/-- Modelled from the spec: the two-letter abbreviations of the fifty US
states plus the District of Columbia. -/
def stateAbbrevs : List Text :=
  (["AL", "AK", "AZ", "AR", "CA", "CO", "CT", "DE", "DC", "FL", "GA", "HI",
    "ID", "IL", "IN", "IA", "KS", "KY", "LA", "ME", "MD", "MA", "MI", "MN",
    "MS", "MO", "MT", "NE", "NV", "NH", "NJ", "NM", "NY", "NC", "ND", "OH",
    "OK", "OR", "PA", "RI", "SC", "SD", "TN", "TX", "UT", "VT", "VA", "WA",
    "WV", "WI", "WY"]).map String.toList

/-- Modelled from the spec: a 5-digit postal code, or a 9-digit one written
`ddddd-dddd`. -/
def isZip5or9 (w : Text) : Bool :=
  (w.length = 5 && w.all isAsciiDigit) ||
  (w.length = 10 && (w.take 5).all isAsciiDigit &&
    (w.drop 5).head? = some '-' && (w.drop 6).all isAsciiDigit)

/-- Modelled from the spec: a line ends in a state abbreviation followed by
a 5-or-9-digit postal code (its last two space-separated tokens). -/
def lineEndsStateZip (line : Text) : Bool :=
  match ((line.splitOn ' ').filter (fun w => !w.isEmpty)).reverse with
  | zip :: st :: _ => isZip5or9 zip && stateAbbrevs.any (fun ab => ab = st)
  | _ => false

/-- Modelled from the spec: some line contains the label
(case-insensitively) and the following line ends in a state abbreviation
and postal code. -/
def specAddrLines (label : List Char) : List Text → Bool
  | [] => false
  | [_] => false
  | l1 :: l2 :: rest =>
    (containsSub (lowerText label) (lowerText l1) && lineEndsStateZip l2) ||
      specAddrLines label (l2 :: rest)

/-- Modelled from the spec: the claim's success condition — the label line
is followed by a line ending in a state abbreviation and a 5-or-9-digit
postal code. -/
def specAddressCond (t : Text) (label : List Char) : Bool :=
  specAddrLines label (t.splitOn '\n')

/-- Counterexample text for C9: the label line is followed by a line
ending in `TX 12345`. -/
def c9text : Text :=
  "Facility Address: 1 Maple St\nAustin, TX 12345\nmore".toList

theorem wsBacktrackAux_some_drop {α : Type} {cont : List Char → Option α}
    {s : List Char} {r : α} :
    ∀ {n : Nat}, wsBacktrackAux cont s n = some r →
      ∃ k, k ≤ n ∧ cont (s.drop k) = some r := by
  intro n
  induction n with
  | zero =>
    intro h
    exact ⟨0, Nat.le_refl 0, by simpa [wsBacktrackAux] using h⟩
  | succ m ih =>
    intro h
    simp only [wsBacktrackAux] at h
    cases hc : cont (s.drop (m + 1)) with
    | some r2 =>
      rw [hc] at h
      simp only [Option.orElse] at h
      exact ⟨m + 1, Nat.le_refl _, by rw [hc]; exact h⟩
    | none =>
      rw [hc] at h
      simp only [Option.orElse] at h
      obtain ⟨k, hk, hck⟩ := ih h
      exact ⟨k, Nat.le_succ_of_le hk, hck⟩

theorem wsBacktrackAux_isSome_of {α : Type} {cont : List Char → Option α}
    {s : List Char} {k : Nat} :
    ∀ {n : Nat}, k ≤ n → (cont (s.drop k)).isSome →
      (wsBacktrackAux cont s n).isSome := by
  intro n
  induction n with
  | zero =>
    intro hk hc
    have hk0 : k = 0 := Nat.le_zero.mp hk
    subst hk0
    simpa [wsBacktrackAux] using hc
  | succ m ih =>
    intro hk hc
    simp only [wsBacktrackAux]
    cases hcc : cont (s.drop (m + 1)) with
    | some r => simp [Option.orElse]
    | none =>
      simp only [Option.orElse]
      by_cases hkm : k = m + 1
      · subst hkm
        rw [hcc] at hc
        simp at hc
      · exact ih (by omega) hc

theorem lazyStop_some_spec {look : List Char → Bool} :
    ∀ {v w : List Char}, lazyStop look v = some w →
      look w = true ∧ ∃ j, j ≤ v.length ∧ v.drop j = w := by
  intro v
  induction v with
  | nil =>
    intro w h
    simp only [lazyStop] at h
    by_cases hl : look []
    · rw [if_pos hl] at h
      injection h with h2
      subst h2
      exact ⟨hl, 0, Nat.le_refl 0, rfl⟩
    · rw [if_neg hl] at h
      exact absurd h (by simp)
  | cons c rest ih =>
    intro w h
    simp only [lazyStop] at h
    by_cases hl : look (c :: rest)
    · rw [if_pos hl] at h
      injection h with h2
      subst h2
      exact ⟨hl, 0, Nat.zero_le _, rfl⟩
    · rw [if_neg hl] at h
      obtain ⟨h1, j, hj, hdrop⟩ := ih h
      exact ⟨h1, j + 1, by simpa using Nat.succ_le_succ hj, by simpa using hdrop⟩

theorem lazyStop_isSome_of {look : List Char → Bool} :
    ∀ {v : List Char} {j : Nat}, j ≤ v.length → look (v.drop j) = true →
      (lazyStop look v).isSome := by
  intro v
  induction v with
  | nil =>
    intro j hj hl
    have hj0 : j = 0 := by simpa using hj
    subst hj0
    simp only [List.drop_nil] at hl
    simp [lazyStop, hl]
  | cons c rest ih =>
    intro j hj hl
    simp only [lazyStop]
    by_cases h0 : look (c :: rest)
    · simp [h0]
    · rw [if_neg h0]
      cases j with
      | zero => exact absurd hl (by simpa using h0)
      | succ j2 => exact ih (by simpa using hj) (by simpa using hl)

theorem searchFrom_isSome_iff {α : Type} (m : Option Char → List Char → Option α)
    (init : Option Char) (t : Text) :
    (searchFrom m init t).isSome ↔
      ∃ p, p ≤ t.length ∧ (m (prevAt init t p) (t.drop p)).isSome := by
  induction t generalizing init with
  | nil =>
    constructor
    · intro h
      refine ⟨0, Nat.le_refl 0, ?_⟩
      simpa [searchFrom, prevAt] using h
    · rintro ⟨p, hp, hm⟩
      have hp0 : p = 0 := by simpa using hp
      subst hp0
      simpa [searchFrom, prevAt] using hm
  | cons c rest ih =>
    constructor
    · intro h
      simp only [searchFrom] at h
      cases hm : m init (c :: rest) with
      | some r => exact ⟨0, Nat.zero_le _, by simp [prevAt, hm]⟩
      | none =>
        rw [hm] at h
        simp only at h
        obtain ⟨p, hp, hmp⟩ := (ih (some c)).mp h
        refine ⟨p + 1, by simpa using Nat.succ_le_succ hp, ?_⟩
        have hbr : prevAt init (c :: rest) (p + 1) = prevAt (some c) rest p := by
          cases p <;> simp [prevAt]
        rw [hbr]
        simpa using hmp
    · rintro ⟨p, hp, hmp⟩
      simp only [searchFrom]
      cases hm : m init (c :: rest) with
      | some r => simp
      | none =>
        simp only
        cases p with
        | zero =>
          simp only [prevAt, List.drop_zero] at hmp
          rw [hm] at hmp
          simp at hmp
        | succ p2 =>
          apply (ih (some c)).mpr
          refine ⟨p2, by simpa using hp, ?_⟩
          have hbr : prevAt init (c :: rest) (p2 + 1) = prevAt (some c) rest p2 := by
            cases p2 <;> simp [prevAt]
          rw [hbr] at hmp
          simpa using hmp

theorem matchAddrAt_some_ne_nil {label s : List Char} {r : Text}
    (h : matchAddrAt label s = some r) : r ≠ [] := by
  simp only [matchAddrAt] at h
  cases hd : dropLitCI label s with
  | none =>
    rw [hd] at h
    simp at h
  | some s1 =>
    rw [hd] at h
    simp only [Option.some_bind] at h
    unfold wsOnlyBacktrack at h
    obtain ⟨k, -, hck⟩ := wsBacktrackAux_some_drop h
    simp only [addrCont] at hck
    cases hls : lazyStop addrLook (s1.drop k) with
    | none =>
      rw [hls] at hck
      simp at hck
    | some w =>
      rw [hls] at hck
      simp only [Option.some_bind] at hck
      cases haa : addrTail (w.drop 1) with
      | none =>
        rw [haa] at hck
        simp at hck
      | some g2 =>
        rw [haa] at hck
        simp only [Option.map_some'] at hck
        injection hck with hck2
        intro h0
        rw [← hck2] at h0
        simp at h0

/-- C9 (corrected): `extract_address` succeeds — returns a non-empty
string — exactly when the label occurs case-insensitively somewhere in the
text and some newline at or after the end of that occurrence is followed
(after optional whitespace) by a line fragment containing `MI`, whitespace
and a five-digit postal code optionally extended by `-dddd`; it is not,
as the claim says, conditioned on a label line followed by a line ending
in an arbitrary state abbreviation and postal code. -/
theorem address_success_iff (t : Text) (label : List Char) :
    extract_address t label ≠ [] ↔
      ∃ q i, (dropLitCI label (t.drop q)).isSome ∧
        q + label.length ≤ i ∧ (t.drop i).head? = some '\n' ∧
        (addrTail (t.drop (i + 1))).isSome := by
  constructor
  · intro hne
    cases hs : searchPlain (matchAddrAt label) t with
    | none =>
      exfalso
      apply hne
      unfold extract_address
      rw [hs]
    | some r =>
      unfold searchPlain at hs
      obtain ⟨p, hp, hm, -⟩ := (searchFrom_eq_some_iff _ none t r).mp hs
      simp only [matchAddrAt] at hm
      cases hd : dropLitCI label (t.drop p) with
      | none =>
        rw [hd] at hm
        simp at hm
      | some s1 =>
        rw [hd] at hm
        simp only [Option.some_bind] at hm
        unfold wsOnlyBacktrack at hm
        obtain ⟨k, -, hck⟩ := wsBacktrackAux_some_drop hm
        simp only [addrCont] at hck
        cases hls : lazyStop addrLook (s1.drop k) with
        | none =>
          rw [hls] at hck
          simp at hck
        | some w =>
          obtain ⟨hlw, j, hj, hdrop⟩ := lazyStop_some_spec hls
          simp only [addrLook, Bool.and_eq_true, decide_eq_true_eq] at hlw
          obtain ⟨hwh, hwt⟩ := hlw
          obtain ⟨-, -, hs1⟩ := dropLitCI_some_spec hd
          rw [List.drop_drop] at hs1
          have hw : t.drop (j + (k + (label.length + p))) = w := by
            rw [← hdrop, ← hs1, List.drop_drop, List.drop_drop]
            congr 1
            omega
          refine ⟨p, j + (k + (label.length + p)), ?_, by omega, ?_, ?_⟩
          · rw [hd]; rfl
          · rw [hw]; exact hwh
          · have h5 : t.drop (j + (k + (label.length + p)) + 1) = w.drop 1 := by
              rw [← hw, List.drop_drop]
            rw [h5]
            exact hwt
  · rintro ⟨q, i, hlab, hqi, hnl, hat⟩
    have hine : t.drop i ≠ [] := by
      intro h0
      rw [h0] at hnl
      simp at hnl
    have hi : i < t.length := by
      have h1 : 0 < (t.drop i).length := List.length_pos.mpr hine
      rw [List.length_drop] at h1
      omega
    obtain ⟨s1, hd⟩ := Option.isSome_iff_exists.mp hlab
    obtain ⟨-, -, hs1⟩ := dropLitCI_some_spec hd
    rw [List.drop_drop] at hs1
    have hcont : (addrCont s1).isSome := by
      simp only [addrCont]
      have hj : i - (label.length + q) ≤ s1.length := by
        rw [← hs1, List.length_drop]
        omega
      have hdr : s1.drop (i - (label.length + q)) = t.drop i := by
        rw [← hs1, List.drop_drop]
        congr 1
        omega
      have hlook : addrLook (s1.drop (i - (label.length + q))) = true := by
        rw [hdr]
        simp only [addrLook, Bool.and_eq_true, decide_eq_true_eq]
        refine ⟨hnl, ?_⟩
        have h2 : (t.drop i).drop 1 = t.drop (i + 1) := by
          rw [List.drop_drop]
        rw [h2]
        exact hat
      have hlsome := lazyStop_isSome_of hj hlook
      cases hls : lazyStop addrLook s1 with
      | none =>
        rw [hls] at hlsome
        simp at hlsome
      | some w =>
        obtain ⟨hlw, -⟩ := lazyStop_some_spec hls
        simp only [addrLook, Bool.and_eq_true, decide_eq_true_eq] at hlw
        obtain ⟨-, hwt⟩ := hlw
        obtain ⟨g2, hg2⟩ := Option.isSome_iff_exists.mp hwt
        simp only [Option.some_bind, hg2, Option.map_some']
        rfl
    have hmsome : (matchAddrAt label (t.drop q)).isSome := by
      simp only [matchAddrAt, hd, Option.some_bind]
      unfold wsOnlyBacktrack
      exact wsBacktrackAux_isSome_of (Nat.zero_le _) (by simpa using hcont)
    have hssome : (searchPlain (matchAddrAt label) t).isSome := by
      unfold searchPlain
      exact (searchFrom_isSome_iff _ none t).mpr ⟨q, by omega, hmsome⟩
    obtain ⟨r, hs⟩ := Option.isSome_iff_exists.mp hssome
    have hrne : r ≠ [] := by
      unfold searchPlain at hs
      obtain ⟨p, -, hm, -⟩ := (searchFrom_eq_some_iff _ none t r).mp hs
      exact matchAddrAt_some_ne_nil hm
    unfold extract_address
    rw [hs]
    exact hrne

/-- C9 counterexample: on a text whose `Facility Address:` line is
followed by a line ending in the state abbreviation `TX` and a five-digit
postal code, the spec's success condition holds, yet `extract_address`
returns the empty string — the code's pattern accepts only Michigan's
`MI`. -/
theorem address_state_counterexample :
    specAddressCond c9text "facility address:".toList = true ∧
    extract_address c9text "facility address:".toList = [] := by
  decide

end MCYJ
